import Mathlib

/-!
Shallow embedding of the Sudoku constraint-satisfaction solver of
`src/sudokuSolver.cpp`, with a verification of the specified properties of
its validator, peer enumeration, heuristics, AC-3 propagation and
backtracking search routines.

Boards (`int board[9][9]`) are total functions `Fin 9 → Fin 9 → Int`; value
`0` marks an empty square.  Domains (`vector<int> domains[9][9]`) are
functions to `List Int`.  The sentinel position `{-1,-1}` is modelled by
`none : Option Pos`.  The C++ routines mutate their arguments in place;
here every function also returns the final value of each object it mutates,
so "the call leaves the board unchanged" becomes "the returned board equals
the argument".  Wall-clock timing is not modelled (the `runtime` field is
kept only because the inconsistency path of `solve` fixes its value).
-/

namespace SudokuSolver

/-- A 9×9 board of C++ `int` values; `0` denotes an empty square. -/
abbrev Board := Fin 9 → Fin 9 → Int

/-- A (row, column) position on the board. -/
abbrev Pos := Fin 9 × Fin 9

/-- The per-square candidate domains, `vector<int> domains[9][9]`. -/
abbrev Domains := Fin 9 → Fin 9 → List Int

/-- The candidate values `1..9`, in the order every C++ value loop scans them. -/
def vals : List Int := [1, 2, 3, 4, 5, 6, 7, 8, 9]

/-- All 81 positions in row-major scan order, as the C++ double loops visit them. -/
def cells : List Pos :=
  (List.finRange 9).flatMap fun i => (List.finRange 9).map fun j => (i, j)

/-- The cell of the 3×3 box of `(row,col)` at offset `(i,j)` from the box's
top-left corner (`boxRow = row/3*3`, `boxCol = col/3*3` in the C++). -/
def boxCell (row col : Fin 9) (i j : Fin 3) : Pos :=
  (⟨row.val / 3 * 3 + i.val, by omega⟩, ⟨col.val / 3 * 3 + j.val, by omega⟩)

/-- The nine cells of the 3×3 box containing `(row,col)`, scanned row by row
exactly as the C++ box loops do. -/
def boxCells (row col : Fin 9) : List Pos :=
  (List.finRange 3).flatMap fun i => (List.finRange 3).map fun j => boxCell row col i j

/-- `isValid(board,row,col,value)` (sudokuSolver.cpp:58-76): true iff `value`
appears nowhere in row `row`, nowhere in column `col`, and nowhere in the 3×3
box containing `(row,col)`; all three scans include the cell `(row,col)`
itself.  The C++ function only reads the board, so it is a pure function
here. -/
def isValid (board : Board) (row col : Fin 9) (value : Int) : Bool :=
  ((List.finRange 9).all fun i =>
      !(value == board i col) && !(value == board row i)) &&
  ((boxCells row col).all fun p => !(value == board p.1 p.2))

/-- The row-and-column part of `getRelated` (sudokuSolver.cpp:86-93): one pass
of `i = 0..8` pushing `(row,i)` when `i ≠ col` and `(i,col)` when `i ≠ row`,
interleaved exactly as the C++ loop does. -/
def relatedRowCol (row col : Fin 9) : List Pos :=
  (List.finRange 9).flatMap fun i =>
    (if i ≠ col then [((row, i) : Pos)] else []) ++
    (if i ≠ row then [((i, col) : Pos)] else [])

/-- `getRelated(row,col,related)` (sudokuSolver.cpp:85-113) applied to an empty
output vector: the row and column pass, then the box pass which skips the cell
itself and any cell already in the list. -/
def getRelated (row col : Fin 9) : List Pos :=
  (boxCells row col).foldl
    (fun acc p =>
      if p = (row, col) then acc
      else if p ∈ acc then acc else acc ++ [p])
    (relatedRowCol row col)

/-- `findValid` (sudokuSolver.cpp:122-128): the values `1..9` that `isValid`
accepts at `(row,col)`, in ascending order. -/
def findValid (board : Board) (row col : Fin 9) : List Int :=
  vals.filter fun v => isValid board row col v

/-- Writes `value` into the square `(row,col)` of `board`. -/
def writeCell (board : Board) (row col : Fin 9) (value : Int) : Board :=
  fun i j => if i = row ∧ j = col then value else board i j

/-- The number of values `1..9` that `isValid` accepts at `(row,col)`. -/
def countValid (board : Board) (row col : Fin 9) : Nat :=
  (findValid board row col).length

/-- Two positions share a unit when they lie in the same row, the same
column, or the same 3×3 box (`box = (val/3, val/3)` coordinates). -/
def sameUnit (a b : Pos) : Prop :=
  a.1 = b.1 ∨ a.2 = b.2 ∨ (a.1.val / 3 = b.1.val / 3 ∧ a.2.val / 3 = b.2.val / 3)

instance (a b : Pos) : Decidable (sameUnit a b) := by unfold sameUnit; infer_instance

theorem mem_boxCells (row col : Fin 9) (p : Pos) :
    p ∈ boxCells row col ↔ p.1.val / 3 = row.val / 3 ∧ p.2.val / 3 = col.val / 3 := by
  simp only [boxCells, List.mem_flatMap, List.mem_map, List.mem_finRange, true_and]
  constructor
  · rintro ⟨i, j, rfl⟩
    constructor <;> · simp only [boxCell]; omega
  · rintro ⟨h1, h2⟩
    refine ⟨⟨p.1.val % 3, by omega⟩, ⟨p.2.val % 3, by omega⟩, ?_⟩
    rw [Prod.ext_iff]
    constructor <;> · apply Fin.ext; simp only [boxCell]; omega

theorem mem_ite_singleton {c : Prop} [Decidable c] (x p : Pos) :
    (p ∈ if c then [x] else []) ↔ c ∧ p = x := by
  split <;> simp_all

theorem mem_relatedRowCol (row col : Fin 9) (p : Pos) :
    p ∈ relatedRowCol row col ↔ (p.1 = row ∧ p.2 ≠ col) ∨ (p.2 = col ∧ p.1 ≠ row) := by
  simp only [relatedRowCol, List.mem_flatMap, List.mem_finRange, List.mem_append,
    mem_ite_singleton, true_and]
  obtain ⟨p1, p2⟩ := p
  constructor
  · rintro ⟨i, ⟨hi, h⟩ | ⟨hi, h⟩⟩ <;>
      simp only [Prod.mk.injEq] at h <;>
      [exact Or.inl ⟨h.1.symm ▸ rfl, h.2 ▸ hi⟩; exact Or.inr ⟨h.2.symm ▸ rfl, h.1 ▸ hi⟩]
  · rintro (⟨h1, h2⟩ | ⟨h1, h2⟩)
    · exact ⟨p2, Or.inl ⟨h2, by simp [h1.symm]⟩⟩
    · exact ⟨p1, Or.inr ⟨h2, by simp [h1.symm]⟩⟩

theorem mem_foldl_dedup (self : Pos) (l : List Pos) (acc : List Pos) (x : Pos) :
    (x ∈ l.foldl
        (fun acc p => if p = self then acc else if p ∈ acc then acc else acc ++ [p]) acc) ↔
      x ∈ acc ∨ (x ∈ l ∧ x ≠ self) := by
  induction l generalizing acc with
  | nil => simp
  | cons p rest ih =>
    simp only [List.foldl_cons, List.mem_cons]
    by_cases hps : p = self
    · subst hps; rw [if_pos rfl, ih]
      constructor
      · tauto
      · rintro (h | ⟨h | h, hx⟩) <;> tauto
    · rw [if_neg hps]
      by_cases hpa : p ∈ acc
      · rw [if_pos hpa, ih]
        constructor
        · tauto
        · rintro (h | ⟨rfl | h, hx⟩) <;> tauto
      · rw [if_neg hpa, ih]
        simp only [List.mem_append, List.mem_singleton]
        constructor
        · rintro (⟨h | rfl⟩ | ⟨h, hx⟩) <;> tauto
        · rintro (h | ⟨rfl | h, hx⟩) <;> tauto

theorem mem_getRelated (row col : Fin 9) (p : Pos) :
    p ∈ getRelated row col ↔ sameUnit (row, col) p ∧ p ≠ (row, col) := by
  rw [getRelated, mem_foldl_dedup, mem_relatedRowCol, mem_boxCells]
  simp only [sameUnit, ne_eq, Prod.ext_iff, not_and, Fin.ext_iff]
  omega

theorem relatedRowCol_nodup (row col : Fin 9) : (relatedRowCol row col).Nodup := by
  rw [relatedRowCol, List.nodup_flatMap]
  constructor
  · intro i _
    by_cases hic : i = col <;> by_cases hir : i = row <;>
      simp [hic, hir, Prod.ext_iff] <;> try (split <;> simp)
  · apply List.Pairwise.imp ?_ (List.nodup_finRange 9)
    intro i j hij x hxi hxj
    simp only [List.mem_append, List.mem_ite_nil_right, List.mem_singleton] at hxi hxj
    rcases hxi with ⟨hic, rfl⟩ | ⟨hir, rfl⟩ <;> rcases hxj with ⟨hjc, he⟩ | ⟨hjr, he⟩ <;>
      simp only [Prod.mk.injEq] at he
    · exact hij he.2
    · exact hic he.2
    · exact hjc he.2.symm
    · exact hij he.1

theorem foldl_dedup_nodup (self : Pos) :
    ∀ (l acc : List Pos), acc.Nodup →
      (l.foldl (fun acc p => if p = self then acc else if p ∈ acc then acc else acc ++ [p])
        acc).Nodup := by
  intro l
  induction l with
  | nil => intro acc h; exact h
  | cons p rest ih =>
    intro acc h
    rw [List.foldl_cons]
    by_cases hps : p = self
    · rw [if_pos hps]; exact ih acc h
    · rw [if_neg hps]
      by_cases hpa : p ∈ acc
      · rw [if_pos hpa]; exact ih acc h
      · rw [if_neg hpa]
        refine ih (acc ++ [p]) (List.Nodup.append h (List.nodup_singleton p) ?_)
        intro a ha hap
        rw [List.mem_singleton] at hap
        exact hpa (hap ▸ ha)

theorem getRelated_nodup : ∀ row col : Fin 9, (getRelated row col).Nodup :=
  fun row col => foldl_dedup_nodup (row, col) (boxCells row col) (relatedRowCol row col)
    (relatedRowCol_nodup row col)

theorem getRelated_length : ∀ row col : Fin 9, (getRelated row col).length ≤ 20 := by decide

/-- C7: for every board, cell `(row,col)` and value, `isValid` returns `false`
iff the value already appears somewhere in row `row`, in column `col`, or in
the 3×3 box containing `(row,col)` (the cell `(row,col)` itself included in
each scan); the function only reads the board, and is embedded as a pure
function. -/
theorem c7_isValid_false_iff (board : Board) (row col : Fin 9) (value : Int) :
    isValid board row col value = false ↔
      ((∃ i : Fin 9, board row i = value) ∨ (∃ i : Fin 9, board i col = value) ∨
        ∃ p : Pos, p.1.val / 3 = row.val / 3 ∧ p.2.val / 3 = col.val / 3 ∧
          board p.1 p.2 = value) := by
  rw [← Bool.not_eq_true]
  simp only [isValid, Bool.and_eq_true, List.all_eq_true, List.mem_finRange,
    Bool.and_eq_true, Bool.not_eq_eq_eq_not, Bool.not_true, beq_eq_false_iff_ne, ne_eq,
    true_implies, forall_const]
  constructor
  · intro h
    by_cases hr : ∃ i : Fin 9, board row i = value
    · exact Or.inl hr
    by_cases hc : ∃ i : Fin 9, board i col = value
    · exact Or.inr (Or.inl hc)
    refine Or.inr (Or.inr ?_)
    push_neg at hr hc
    by_contra hb
    push_neg at hb
    refine h ⟨fun i => ⟨fun hv => hc i hv.symm, fun hv => hr i hv.symm⟩, ?_⟩
    intro p hp hv
    rw [mem_boxCells] at hp
    exact hb p hp.1 hp.2 hv.symm
  · rintro (⟨i, hi⟩ | ⟨i, hi⟩ | ⟨p, hp1, hp2, hv⟩) ⟨hrc, hbox⟩
    · exact (hrc i).2 hi.symm
    · exact (hrc i).1 hi.symm
    · exact hbox p ((mem_boxCells row col p).2 ⟨hp1, hp2⟩) hv.symm

/-- C8: for every cell, `getRelated` (run on an empty output vector) returns
exactly the other cells sharing its row, column or box, without duplicates
and without the cell itself; membership in the peer list is symmetric, and
there are at most 20 peers. -/
theorem c8_getRelated_spec (row col : Fin 9) :
    (∀ p : Pos, p ∈ getRelated row col ↔ sameUnit (row, col) p ∧ p ≠ (row, col)) ∧
    (getRelated row col).Nodup ∧
    (getRelated row col).length ≤ 20 ∧
    (∀ p : Pos, p ∈ getRelated row col ↔ (row, col) ∈ getRelated p.1 p.2) := by
  refine ⟨mem_getRelated row col, getRelated_nodup row col, getRelated_length row col, ?_⟩
  intro p
  rw [mem_getRelated, mem_getRelated]
  simp only [sameUnit, ne_eq, Prod.ext_iff, not_and, Fin.ext_iff]
  omega

/-- Replaces the domain stored at position `p`. -/
def setDomain (d : Domains) (p : Pos) (l : List Int) : Domains :=
  fun i j => if i = p.1 ∧ j = p.2 then l else d i j

/-- `update(domains, squarei, squarej)` (sudokuSolver.cpp:268-288), the AC-3
revision step for the arc `(squarei, squarej)`: a value `i` of `squarei`'s
domain is kept iff `squarej`'s domain holds some value `j ≠ i`; the returned
flag is set iff some value was dropped.  The C++ rebuilds `newDomain` by
pushing the kept values in order, i.e. a filter, then stores it. -/
def update (d : Domains) (si sj : Pos) : Domains × Bool :=
  (setDomain d si ((d si.1 si.2).filter fun i => (d sj.1 sj.2).any fun j => i != j),
   (d si.1 si.2).any fun i => !((d sj.1 sj.2).any fun j => i != j))

theorem update_fst_eq (d : Domains) (si sj : Pos) :
    (update d si sj).1 si.1 si.2 =
      (d si.1 si.2).filter fun i => (d sj.1 sj.2).any fun j => i != j := by
  simp [update, setDomain]

theorem update_fst_ne (d : Domains) (si sj : Pos) (i j : Fin 9)
    (h : ¬(i = si.1 ∧ j = si.2)) : (update d si sj).1 i j = d i j := by
  simp [update, setDomain, h]

theorem update_sublist (d : Domains) (si sj : Pos) (i j : Fin 9) :
    ((update d si sj).1 i j).Sublist (d i j) := by
  by_cases h : i = si.1 ∧ j = si.2
  · obtain ⟨rfl, rfl⟩ := h
    rw [update_fst_eq]
    exact List.filter_sublist _
  · rw [update_fst_ne d si sj i j h]

theorem update_subset (d : Domains) (si sj : Pos) (i j : Fin 9) :
    (update d si sj).1 i j ⊆ d i j :=
  (update_sublist d si sj i j).subset

theorem update_false_eq (d : Domains) (si sj : Pos)
    (h : (update d si sj).2 = false) : (update d si sj).1 = d := by
  funext i j
  by_cases hij : i = si.1 ∧ j = si.2
  · obtain ⟨rfl, rfl⟩ := hij
    rw [update_fst_eq]
    apply List.filter_eq_self.mpr
    intro a ha
    simp only [update, List.any_eq_false, Bool.not_eq_eq_eq_not, Bool.not_true] at h
    have := h a ha
    simpa using this
  · exact update_fst_ne d si sj i j hij

/-- The kept-value characterisation of the revised domain. -/
theorem mem_update_fst (d : Domains) (si sj : Pos) (v : Int) :
    (v ∈ (update d si sj).1 si.1 si.2) ↔
      v ∈ d si.1 si.2 ∧ ∃ w ∈ d sj.1 sj.2, w ≠ v := by
  rw [update_fst_eq]
  simp only [List.mem_filter, List.any_eq_true, bne_iff_ne, ne_eq]
  constructor
  · rintro ⟨hv, w, hw, hne⟩
    exact ⟨hv, w, hw, fun e => hne (e ▸ rfl)⟩
  · rintro ⟨hv, w, hw, hne⟩
    exact ⟨hv, w, hw, fun e => hne (e ▸ rfl)⟩

/-- The returned flag is set iff a value was removed. -/
theorem update_snd_iff (d : Domains) (si sj : Pos) :
    (update d si sj).2 = true ↔
      ∃ w ∈ d si.1 si.2, w ∉ (update d si sj).1 si.1 si.2 := by
  constructor
  · intro h
    simp only [update, List.any_eq_true, Bool.not_eq_eq_eq_not, Bool.not_true,
      List.any_eq_false] at h
    obtain ⟨w, hw, hall⟩ := h
    refine ⟨w, hw, fun hmem => ?_⟩
    rw [mem_update_fst] at hmem
    obtain ⟨-, x, hx, hne⟩ := hmem
    have hwx : w = x := by simpa using hall x hx
    exact hne hwx.symm
  · rintro ⟨w, hw, hnmem⟩
    rcases Bool.eq_false_or_eq_true (update d si sj).2 with hb | hb
    · exact hb
    · exfalso
      apply hnmem
      rw [update_false_eq d si sj hb]
      exact hw

/-- C1: the revision step `update` keeps a value `v` in A's domain iff it was
there and B's domain holds at least one value different from `v`; it returns
true iff at least one value was removed from A's domain. -/
theorem c1_update_spec (d : Domains) (si sj : Pos) (v : Int) :
    ((v ∈ (update d si sj).1 si.1 si.2) ↔
      v ∈ d si.1 si.2 ∧ ∃ w ∈ d sj.1 sj.2, w ≠ v) ∧
    ((update d si sj).2 = true ↔
      ∃ w ∈ d si.1 si.2, w ∉ (update d si sj).1 si.1 si.2) :=
  ⟨mem_update_fst d si sj v, update_snd_iff d si sj⟩

theorem update_true_length (d : Domains) (si sj : Pos)
    (h : (update d si sj).2 = true) :
    ((update d si sj).1 si.1 si.2).length < (d si.1 si.2).length := by
  rw [update_snd_iff] at h
  obtain ⟨w, hw, hnmem⟩ := h
  have hsub := update_sublist d si sj si.1 si.2
  rcases Nat.lt_or_ge ((update d si sj).1 si.1 si.2).length (d si.1 si.2).length with
    hlt | hge
  · exact hlt
  · exact absurd (hsub.eq_of_length (Nat.le_antisymm hsub.length_le hge) ▸ hw) hnmem

theorem update_true_nonempty (d : Domains) (si sj : Pos)
    (h : (update d si sj).2 = true) : d si.1 si.2 ≠ [] := by
  intro he
  simp only [update, he, List.any_nil] at h
  exact Bool.noConfusion h

/-- Every position occurs in the row-major scan. -/
theorem mem_cells (p : Pos) : p ∈ cells := by
  simp only [cells, List.mem_flatMap, List.mem_map, List.mem_finRange, true_and]
  exact ⟨p.1, p.2, rfl⟩

/-- The seed worklist of `ac3` (sudokuSolver.cpp:298-306): every arc
`(cell, peer)` in row-major cell order. -/
def seedArcs : List (Pos × Pos) :=
  cells.flatMap fun p => (getRelated p.1 p.2).map fun q => (p, q)

/-- Total number of values held over all 81 domains. -/
def totalSize (d : Domains) : Nat :=
  (cells.map fun p => (d p.1 p.2).length).sum

/-- The arcs `(peer, squarei)` re-enqueued after `squarei`'s domain changed
(sudokuSolver.cpp:317-325); the C++ skips `squarei` itself, which
`getRelated` never returns anyway. -/
def requeue (si : Pos) : List (Pos × Pos) :=
  ((getRelated si.1 si.2).filter fun q => decide (q ≠ si)).map fun q => (q, si)

theorem requeue_length (si : Pos) : (requeue si).length ≤ 20 :=
  le_trans (by simpa [requeue] using
    List.Sublist.length_le (List.filter_sublist (getRelated si.1 si.2)))
    (getRelated_length si.1 si.2)

/-- The AC-3 worklist loop (sudokuSolver.cpp:308-327), with explicit fuel so
that the recursion is structural and hence computable by the kernel; `none`
means the fuel ran out, which never happens for the fuel `ac3` supplies
(`ac3Aux_isSome`). -/
def ac3Aux : Nat → Domains → List (Pos × Pos) → Option (Domains × Bool)
  | 0, _, _ => none
  | _ + 1, d, [] => some (d, true)
  | fuel + 1, d, (si, sj) :: rest =>
    if (update d si sj).2 then
      if (update d si sj).1 si.1 si.2 = [] then some ((update d si sj).1, false)
      else ac3Aux fuel (update d si sj).1 (rest ++ requeue si)
    else ac3Aux fuel (update d si sj).1 rest

theorem totalSize_update_le (d : Domains) (si sj : Pos) :
    totalSize (update d si sj).1 ≤ totalSize d := by
  apply List.sum_le_sum
  intro p _
  exact (update_sublist d si sj p.1 p.2).length_le

theorem totalSize_update_true_lt (d : Domains) (si sj : Pos)
    (h : (update d si sj).2 = true) :
    totalSize (update d si sj).1 < totalSize d := by
  apply List.sum_lt_sum
  · intro p _
    exact (update_sublist d si sj p.1 p.2).length_le
  · exact ⟨si, mem_cells si, update_true_length d si sj h⟩

/-- The loop measure `21 * totalSize + |queue|` strictly decreases each
iteration, so this fuel suffices. -/
theorem ac3Aux_isSome : ∀ (fuel : Nat) (d : Domains) (q : List (Pos × Pos)),
    21 * totalSize d + q.length < fuel → (ac3Aux fuel d q).isSome = true := by
  intro fuel
  induction fuel with
  | zero => intro d q h; omega
  | succ n ih =>
    intro d q h
    match q with
    | [] => rfl
    | (si, sj) :: rest =>
      rw [ac3Aux]
      rcases Bool.eq_false_or_eq_true (update d si sj).2 with hu | hu
      · rw [hu, if_pos rfl]
        by_cases he : (update d si sj).1 si.1 si.2 = []
        · rw [if_pos he]; rfl
        · rw [if_neg he]
          apply ih
          have hts : totalSize (update d si sj).1 < totalSize d :=
            totalSize_update_true_lt d si sj hu
          have hrq : (requeue si).length ≤ 20 := requeue_length si
          simp only [List.length_cons, List.length_append] at h ⊢
          omega
      · rw [hu, if_neg (by simp)]
        apply ih
        have hts : totalSize (update d si sj).1 ≤ totalSize d := totalSize_update_le d si sj
        simp only [List.length_cons] at h
        omega

/-- `ac3(domains)` (sudokuSolver.cpp:295-328): seeds the worklist with every
(cell, peer) arc and revises to a fixed point; returns the final domains and
`false` iff an inconsistency (an emptied revised domain) was detected.  The
`getD` default is never reached by `ac3Aux_isSome`. -/
def ac3 (d : Domains) : Domains × Bool :=
  (ac3Aux (21 * totalSize d + seedArcs.length + 1) d seedArcs).getD (d, true)

theorem ac3_eq_aux (d : Domains) :
    ac3Aux (21 * totalSize d + seedArcs.length + 1) d seedArcs = some (ac3 d) := by
  have h := ac3Aux_isSome (21 * totalSize d + seedArcs.length + 1) d seedArcs (by omega)
  rw [ac3]
  obtain ⟨out, hout⟩ := Option.isSome_iff_exists.mp h
  rw [hout]
  rfl

theorem sameUnit_comm (a b : Pos) : sameUnit a b ↔ sameUnit b a := by
  simp only [sameUnit, Fin.ext_iff]
  omega

theorem mem_getRelated_symm (a b : Pos) (h : b ∈ getRelated a.1 a.2) :
    a ∈ getRelated b.1 b.2 := by
  rw [mem_getRelated] at h ⊢
  exact ⟨(sameUnit_comm (a.1, a.2) b).mp h.1, fun e => h.2 (by rw [e])⟩

theorem mem_requeue (si a1 : Pos) (h : si ∈ getRelated a1.1 a1.2) :
    (a1, si) ∈ requeue si := by
  simp only [requeue, List.mem_map, List.mem_filter, decide_eq_true_eq]
  refine ⟨a1, ⟨mem_getRelated_symm a1 si h, ?_⟩, rfl⟩
  rw [mem_getRelated] at h
  exact fun e => h.2 (by rw [e])

theorem mem_seedArcs (a : Pos × Pos) (h : a.2 ∈ getRelated a.1.1 a.1.2) :
    a ∈ seedArcs := by
  simp only [seedArcs, List.mem_flatMap, List.mem_map]
  exact ⟨a.1, mem_cells a.1, a.2, h, rfl⟩

/-- Consistency of an arc is preserved when the source domain shrinks and the
target domain is unchanged. -/
theorem arcConsistent_mono (d d' : Domains) (a1 a2 : Pos)
    (h : (update d a1 a2).2 = false)
    (hsub : d' a1.1 a1.2 ⊆ d a1.1 a1.2)
    (heq : d' a2.1 a2.2 = d a2.1 a2.2) :
    (update d' a1 a2).2 = false := by
  simp only [update, List.any_eq_false, Bool.not_eq_eq_eq_not, Bool.not_false] at h ⊢
  intro x hx
  rw [heq]
  exact h x (hsub hx)

/-- Revising the same arc again immediately after revising it changes
nothing: the filter is idempotent. -/
theorem update_self_consistent (d : Domains) (si sj : Pos) (hne : sj ≠ si) :
    (update (update d si sj).1 si sj).2 = false := by
  have hj : (update d si sj).1 sj.1 sj.2 = d sj.1 sj.2 := by
    apply update_fst_ne
    intro hc
    exact hne (Prod.ext hc.1 hc.2)
  have hflag : (update (update d si sj).1 si sj).2 =
      ((update d si sj).1 si.1 si.2).any
        fun i => !(((update d si sj).1 sj.1 sj.2).any fun j => i != j) := rfl
  rw [hflag, hj, List.any_eq_false]
  intro x hx
  rw [update_fst_eq] at hx
  have hp : ((d sj.1 sj.2).any fun j => x != j) = true := (List.mem_filter.mp hx).2
  intro hcon
  have hcon2 : (!((d sj.1 sj.2).any fun j => x != j)) = true := hcon
  rw [hp] at hcon2
  simp at hcon2

theorem ac3Aux_subset : ∀ (fuel : Nat) (d : Domains) (q : List (Pos × Pos))
    (out : Domains × Bool), ac3Aux fuel d q = some out →
    ∀ i j : Fin 9, out.1 i j ⊆ d i j := by
  intro fuel
  induction fuel with
  | zero => intro d q out h; exact absurd h (by simp [ac3Aux])
  | succ n ih =>
    intro d q out h i j
    match q with
    | [] =>
      rw [ac3Aux] at h
      obtain rfl := Option.some.inj h
      exact fun x hx => hx
    | (si, sj) :: rest =>
      rw [ac3Aux] at h
      rcases Bool.eq_false_or_eq_true (update d si sj).2 with hu | hu
      · rw [hu, if_pos rfl] at h
        by_cases he : (update d si sj).1 si.1 si.2 = []
        · rw [if_pos he] at h
          obtain rfl := Option.some.inj h
          exact update_subset d si sj i j
        · rw [if_neg he] at h
          exact fun x hx => update_subset d si sj i j (ih _ _ _ h i j hx)
      · rw [hu, if_neg (by simp)] at h
        exact fun x hx => update_subset d si sj i j (ih _ _ _ h i j hx)

theorem ac3Aux_false_empty : ∀ (fuel : Nat) (d : Domains) (q : List (Pos × Pos))
    (out : Domains × Bool), ac3Aux fuel d q = some out → out.2 = false →
    ∃ i j : Fin 9, d i j ≠ [] ∧ out.1 i j = [] := by
  intro fuel
  induction fuel with
  | zero => intro d q out h; exact absurd h (by simp [ac3Aux])
  | succ n ih =>
    intro d q out h hfalse
    match q with
    | [] =>
      rw [ac3Aux] at h
      obtain rfl := Option.some.inj h
      exact absurd hfalse (by simp)
    | (si, sj) :: rest =>
      rw [ac3Aux] at h
      rcases Bool.eq_false_or_eq_true (update d si sj).2 with hu | hu
      · rw [hu, if_pos rfl] at h
        by_cases he : (update d si sj).1 si.1 si.2 = []
        · rw [if_pos he] at h
          obtain rfl := Option.some.inj h
          exact ⟨si.1, si.2, update_true_nonempty d si sj hu, he⟩
        · rw [if_neg he] at h
          obtain ⟨i, j, hne, hout⟩ := ih _ _ _ h hfalse
          obtain ⟨x, hx⟩ := List.exists_mem_of_ne_nil _ hne
          exact ⟨i, j, List.ne_nil_of_mem (update_subset d si sj i j hx), hout⟩
      · rw [hu, if_neg (by simp)] at h
        rw [update_false_eq d si sj hu] at h
        exact ih _ _ _ h hfalse

theorem ac3Aux_true_nonempty : ∀ (fuel : Nat) (d : Domains) (q : List (Pos × Pos))
    (out : Domains × Bool), ac3Aux fuel d q = some out → out.2 = true →
    ∀ i j : Fin 9, d i j ≠ [] → out.1 i j ≠ [] := by
  intro fuel
  induction fuel with
  | zero => intro d q out h; exact absurd h (by simp [ac3Aux])
  | succ n ih =>
    intro d q out h htrue i j hne
    match q with
    | [] =>
      rw [ac3Aux] at h
      obtain rfl := Option.some.inj h
      exact hne
    | (si, sj) :: rest =>
      rw [ac3Aux] at h
      rcases Bool.eq_false_or_eq_true (update d si sj).2 with hu | hu
      · rw [hu, if_pos rfl] at h
        by_cases he : (update d si sj).1 si.1 si.2 = []
        · rw [if_pos he] at h
          obtain rfl := Option.some.inj h
          exact absurd htrue (by simp)
        · rw [if_neg he] at h
          apply ih _ _ _ h htrue
          by_cases hij : i = si.1 ∧ j = si.2
          · obtain ⟨rfl, rfl⟩ := hij
            exact he
          · rw [update_fst_ne d si sj i j hij]
            exact hne
      · rw [hu, if_neg (by simp)] at h
        rw [update_false_eq d si sj hu] at h
        exact ih _ _ _ h htrue i j hne

theorem ac3Aux_fixed : ∀ (fuel : Nat) (d : Domains) (q : List (Pos × Pos))
    (out : Domains × Bool), ac3Aux fuel d q = some out → out.2 = true →
    (∀ a : Pos × Pos, a.2 ∈ getRelated a.1.1 a.1.2 →
      a ∈ q ∨ (update d a.1 a.2).2 = false) →
    ∀ a : Pos × Pos, a.2 ∈ getRelated a.1.1 a.1.2 →
      (update out.1 a.1 a.2).2 = false := by
  intro fuel
  induction fuel with
  | zero => intro d q out h; exact absurd h (by simp [ac3Aux])
  | succ n ih =>
    intro d q out h htrue hinv a ha
    match q with
    | [] =>
      rw [ac3Aux] at h
      obtain rfl := Option.some.inj h
      rcases hinv a ha with hin | hc
      · exact absurd hin (List.not_mem_nil a)
      · exact hc
    | (si, sj) :: rest =>
      rw [ac3Aux] at h
      rcases Bool.eq_false_or_eq_true (update d si sj).2 with hu | hu
      · rw [hu, if_pos rfl] at h
        by_cases he : (update d si sj).1 si.1 si.2 = []
        · rw [if_pos he] at h
          obtain rfl := Option.some.inj h
          exact absurd htrue (by simp)
        · rw [if_neg he] at h
          refine ih _ _ _ h htrue ?_ a ha
          intro b hb
          rcases hinv b hb with hin | hc
          · rcases List.mem_cons.mp hin with rfl | hin
            · right
              apply update_self_consistent d si sj
              rw [mem_getRelated] at hb
              exact hb.2
            · left
              exact List.mem_append_left _ hin
          · by_cases hbsi : b.2 = si
            · left
              apply List.mem_append_right
              have : (b.1, b.2) ∈ requeue si := by
                rw [hbsi]
                exact mem_requeue si b.1 (hbsi ▸ hb)
              exact this
            · right
              apply arcConsistent_mono d _ b.1 b.2 hc
              · exact update_subset d si sj b.1.1 b.1.2
              · apply update_fst_ne
                intro hcon
                exact hbsi (Prod.ext hcon.1 hcon.2)
      · rw [hu, if_neg (by simp)] at h
        rw [update_false_eq d si sj hu] at h
        refine ih _ _ _ h htrue ?_ a ha
        intro b hb
        rcases hinv b hb with hin | hc
        · rcases List.mem_cons.mp hin with rfl | hin
          · right
            exact hu
          · left
            exact hin
        · right
          exact hc

/-- Detecting an emptied domain stops the loop at once: the result does not
depend on the remaining worklist. -/
theorem ac3Aux_empty_stops (fuel : Nat) (d : Domains) (si sj : Pos)
    (rest : List (Pos × Pos)) (h1 : (update d si sj).2 = true)
    (h2 : (update d si sj).1 si.1 si.2 = []) :
    ac3Aux (fuel + 1) d ((si, sj) :: rest) = some ((update d si sj).1, false) := by
  rw [ac3Aux, h1, if_pos rfl, if_pos h2]

/-- C4: across a run of `ac3` every cell's domain only shrinks — already after
every individual revision step, and hence from seed to final domains; `ac3`
returns false iff some cell's domain that was nonempty on entry ends empty
(i.e. was emptied during propagation; an initially empty domain is never
"detected"); upon detecting an emptied domain the loop returns at once, its
result independent of every remaining arc; and when it returns true the final
domains are a fixed point: revising any arc changes nothing. -/
theorem c4_ac3_spec (d : Domains) :
    (∀ (d0 : Domains) (si sj : Pos) (i j : Fin 9), (update d0 si sj).1 i j ⊆ d0 i j) ∧
    (∀ i j : Fin 9, (ac3 d).1 i j ⊆ d i j) ∧
    ((ac3 d).2 = false ↔ ∃ i j : Fin 9, d i j ≠ [] ∧ (ac3 d).1 i j = []) ∧
    ((ac3 d).2 = true → ∀ a : Pos × Pos, a.2 ∈ getRelated a.1.1 a.1.2 →
      (update (ac3 d).1 a.1 a.2).2 = false) ∧
    (∀ (fuel : Nat) (d0 : Domains) (si sj : Pos) (rest : List (Pos × Pos)),
      (update d0 si sj).2 = true → (update d0 si sj).1 si.1 si.2 = [] →
      ac3Aux (fuel + 1) d0 ((si, sj) :: rest) = some ((update d0 si sj).1, false)) := by
  have hrun := ac3_eq_aux d
  refine ⟨fun d0 si sj i j => update_subset d0 si sj i j,
    fun i j => ac3Aux_subset _ d seedArcs (ac3 d) hrun i j, ?_, ?_, ac3Aux_empty_stops⟩
  · constructor
    · intro hfalse
      exact ac3Aux_false_empty _ d seedArcs (ac3 d) hrun hfalse
    · rintro ⟨i, j, hne, hempty⟩
      rcases Bool.eq_false_or_eq_true (ac3 d).2 with hb | hb
      · exact absurd hempty (ac3Aux_true_nonempty _ d seedArcs (ac3 d) hrun hb i j hne)
      · exact hb
  · intro htrue a ha
    exact ac3Aux_fixed _ d seedArcs (ac3 d) hrun htrue
      (fun b hb => Or.inl (mem_seedArcs b hb)) a ha

/-- `findEmpty(board)` (sudokuSolver.cpp:349-358): the first empty square in
row-major order; `none` models the sentinel `{-1,-1}`. -/
def findEmpty (board : Board) : Option Pos :=
  cells.find? fun p => board p.1 p.2 == 0

/-- `findEmptyMAC(board,domains)` (sudokuSolver.cpp:365-374): the same scan,
with the MAC signature (the domains argument is unused in the C++ too). -/
def findEmptyMAC (board : Board) (_domains : Domains) : Option Pos :=
  cells.find? fun p => board p.1 p.2 == 0

/-- The scan loop of `findEmptyMRV` (sudokuSolver.cpp:381-401): `smallest` is
the current best number of legal values (seeded with 10), `best` the current
best square; a strictly smaller count replaces the best, and the loop returns
as soon as the new best count is 0 or 1. -/
def mrvLoop (board : Board) : List Pos → Nat → Option Pos → Option Pos
  | [], _, best => best
  | p :: rest, smallest, best =>
    if board p.1 p.2 ≠ 0 then mrvLoop board rest smallest best
    else if countValid board p.1 p.2 < smallest then
      (if countValid board p.1 p.2 ≤ 1 then some p
       else mrvLoop board rest (countValid board p.1 p.2) (some p))
    else mrvLoop board rest smallest best

/-- `findEmptyMRV(board)`: minimum-remaining-values square choice. -/
def findEmptyMRV (board : Board) : Option Pos :=
  mrvLoop board cells 10 none

/-- Minimum of a list of naturals (spec side). -/
def minNat : List Nat → Option Nat
  | [] => none
  | x :: rest =>
    match minNat rest with
    | none => some x
    | some m => some (min x m)

theorem minNat_cons_none {l : List Nat} (x : Nat) (h : minNat l = none) :
    minNat (x :: l) = some x := by
  simp [minNat, h]

theorem minNat_cons_some {l : List Nat} (x m : Nat) (h : minNat l = some m) :
    minNat (x :: l) = some (min x m) := by
  simp [minNat, h]

theorem minNat_mem : ∀ (l : List Nat) (m : Nat), minNat l = some m → m ∈ l := by
  intro l
  induction l with
  | nil => intro m h; exact absurd h (by simp [minNat])
  | cons x rest ih =>
    intro m h
    cases hr : minNat rest with
    | none =>
      rw [minNat_cons_none x hr] at h
      obtain rfl := Option.some.inj h
      exact List.mem_cons_self x rest
    | some m' =>
      rw [minNat_cons_some x m' hr] at h
      obtain rfl := Option.some.inj h
      rcases Nat.le_total x m' with hle | hle
      · rw [Nat.min_eq_left hle]; exact List.mem_cons_self x rest
      · rw [Nat.min_eq_right hle]; exact List.mem_cons_of_mem x (ih m' hr)

theorem countValid_le_nine (board : Board) (row col : Fin 9) :
    countValid board row col ≤ 9 :=
  le_trans (List.length_filter_le _ _) (by rfl)

/-- The empty squares of the board in row-major order. -/
def emptyCells (board : Board) : List Pos :=
  cells.filter fun p => board p.1 p.2 == 0

/-- No-short-circuit part of the MRV spec, from a suffix `l` with current best
count `s` and best square `best`: the first cell of `l` attaining the minimum
count when that minimum improves on `s`, else `best`. -/
def mrvPick (board : Board) (l : List Pos) (s : Nat) (best : Option Pos) : Option Pos :=
  match minNat ((l.filter fun p => board p.1 p.2 == 0).map fun p =>
      countValid board p.1 p.2) with
  | none => best
  | some m =>
    if m < s then
      l.find? fun p => board p.1 p.2 == 0 && countValid board p.1 p.2 == m
    else best

/-- Declarative description of `mrvLoop` on a suffix. -/
def mrvSpecFrom (board : Board) (l : List Pos) (s : Nat) (best : Option Pos) :
    Option Pos :=
  match l.find? fun p => board p.1 p.2 == 0 && decide (countValid board p.1 p.2 ≤ 1) with
  | some p => some p
  | none => mrvPick board l s best

/-- The claim's reading of `findEmptyMRV`: the first empty cell (row-major
order) whose legal-value count attains the minimum over all empty cells;
`none` when no empty cell exists.  Spec-side definition, for comparison with
the implementation. -/
def mrvFirstMin (board : Board) : Option Pos :=
  match minNat ((emptyCells board).map fun p => countValid board p.1 p.2) with
  | none => none
  | some m => cells.find? fun p => board p.1 p.2 == 0 && countValid board p.1 p.2 == m

/-- What `findEmptyMRV` actually computes: the first empty cell with at most
one legal value when one exists (the short-circuit), otherwise the first
empty cell attaining the minimum count. -/
def mrvAmendedSpec (board : Board) : Option Pos :=
  match cells.find? fun p => board p.1 p.2 == 0 && decide (countValid board p.1 p.2 ≤ 1) with
  | some p => some p
  | none => mrvFirstMin board

theorem mrvSpecFrom_cons_filled (board : Board) (p : Pos) (rest : List Pos)
    (s : Nat) (best : Option Pos) (h : board p.1 p.2 ≠ 0) :
    mrvSpecFrom board (p :: rest) s best = mrvSpecFrom board rest s best := by
  have hb : (board p.1 p.2 == 0) = false := by simpa using h
  rw [mrvSpecFrom, mrvSpecFrom, mrvPick, mrvPick,
    @List.find?_cons_of_neg Pos
      (fun q => board q.1 q.2 == 0 && decide (countValid board q.1 q.2 ≤ 1)) p rest
      (by simp [hb]),
    @List.filter_cons_of_neg Pos (fun q => board q.1 q.2 == 0) p rest (by simp [hb])]
  cases hf : rest.find? fun q =>
      board q.1 q.2 == 0 && decide (countValid board q.1 q.2 ≤ 1) with
  | some q => rfl
  | none =>
    cases hm : minNat ((rest.filter fun q => board q.1 q.2 == 0).map fun q =>
        countValid board q.1 q.2) with
    | none => rfl
    | some m =>
      dsimp only
      rw [@List.find?_cons_of_neg Pos
        (fun q => board q.1 q.2 == 0 && countValid board q.1 q.2 == m) p rest
        (by simp [hb])]

theorem mrvLoop_eq_spec (board : Board) :
    ∀ (l : List Pos) (s : Nat) (best : Option Pos), 2 ≤ s →
      mrvLoop board l s best = mrvSpecFrom board l s best := by
  intro l
  induction l with
  | nil => intro s best _; rfl
  | cons p rest ih =>
    intro s best hs
    by_cases hemp : board p.1 p.2 = 0
    case neg =>
      rw [mrvLoop, if_pos hemp, ih s best hs,
        mrvSpecFrom_cons_filled board p rest s best hemp]
    case pos =>
      have hb : (board p.1 p.2 == 0) = true := by simpa using hemp
      rw [mrvLoop, if_neg (not_not_intro hemp)]
      by_cases hlt : countValid board p.1 p.2 < s
      · rw [if_pos hlt]
        by_cases hle : countValid board p.1 p.2 ≤ 1
        · rw [if_pos hle, mrvSpecFrom,
            @List.find?_cons_of_pos Pos
              (fun q => board q.1 q.2 == 0 && decide (countValid board q.1 q.2 ≤ 1)) p rest
              (by simp [hb, hle])]
        · rw [if_neg hle, ih (countValid board p.1 p.2) (some p) (by omega),
            mrvSpecFrom, mrvSpecFrom,
            @List.find?_cons_of_neg Pos
              (fun q => board q.1 q.2 == 0 && decide (countValid board q.1 q.2 ≤ 1)) p rest
              (by simp [hb, hle])]
          cases hf : rest.find? fun q =>
              board q.1 q.2 == 0 && decide (countValid board q.1 q.2 ≤ 1) with
          | some q => rfl
          | none =>
            rw [mrvPick, mrvPick,
              @List.filter_cons_of_pos Pos (fun q => board q.1 q.2 == 0) p rest hb,
              List.map_cons]
            cases hmr : minNat ((rest.filter fun q => board q.1 q.2 == 0).map fun q =>
                countValid board q.1 q.2) with
            | none =>
              rw [minNat_cons_none _ hmr]
              dsimp only
              rw [if_pos hlt,
                @List.find?_cons_of_pos Pos
                  (fun q => board q.1 q.2 == 0 &&
                    countValid board q.1 q.2 == countValid board p.1 p.2) p rest
                  (by simp [hb])]
            | some mr =>
              rw [minNat_cons_some _ mr hmr]
              dsimp only
              by_cases hcmp : mr < countValid board p.1 p.2
              · rw [show min (countValid board p.1 p.2) mr = mr from by omega,
                  if_pos hcmp, if_pos (show mr < s from by omega),
                  @List.find?_cons_of_neg Pos
                    (fun q => board q.1 q.2 == 0 && countValid board q.1 q.2 == mr) p rest
                    (by simp [hb]; omega)]
              · rw [show min (countValid board p.1 p.2) mr = countValid board p.1 p.2
                    from by omega,
                  if_pos hlt, if_neg hcmp,
                  @List.find?_cons_of_pos Pos
                    (fun q => board q.1 q.2 == 0 &&
                      countValid board q.1 q.2 == countValid board p.1 p.2) p rest
                    (by simp [hb])]
      · rw [if_neg hlt, ih s best hs, mrvSpecFrom, mrvSpecFrom,
          @List.find?_cons_of_neg Pos
            (fun q => board q.1 q.2 == 0 && decide (countValid board q.1 q.2 ≤ 1)) p rest
            (by simp [hb]; omega)]
        cases hf : rest.find? fun q =>
            board q.1 q.2 == 0 && decide (countValid board q.1 q.2 ≤ 1) with
        | some q => rfl
        | none =>
          rw [mrvPick, mrvPick,
            @List.filter_cons_of_pos Pos (fun q => board q.1 q.2 == 0) p rest hb,
            List.map_cons]
          cases hmr : minNat ((rest.filter fun q => board q.1 q.2 == 0).map fun q =>
              countValid board q.1 q.2) with
          | none =>
            rw [minNat_cons_none _ hmr]
            dsimp only
            rw [if_neg hlt]
          | some mr =>
            rw [minNat_cons_some _ mr hmr]
            dsimp only
            by_cases hms : mr < s
            · rw [show min (countValid board p.1 p.2) mr = mr from by omega,
                if_pos hms, if_pos hms,
                @List.find?_cons_of_neg Pos
                  (fun q => board q.1 q.2 == 0 && countValid board q.1 q.2 == mr) p rest
                  (by simp [hb]; omega)]
            · rw [if_neg hms,
                if_neg (show ¬min (countValid board p.1 p.2) mr < s from by omega)]

/-- C6 (amended): for every board, `findEmptyMRV` returns the first empty cell
with at most one legal value when such a cell exists; otherwise the first
empty cell (row-major order) attaining the minimum legal-value count, equal
counts never replacing the current best; and `none` (the `{-1,-1}` sentinel)
exactly when the board has no empty cell. -/
theorem c6_amended_findEmptyMRV (board : Board) :
    findEmptyMRV board = mrvAmendedSpec board := by
  rw [findEmptyMRV, mrvLoop_eq_spec board cells 10 none (by omega),
    mrvSpecFrom, mrvAmendedSpec]
  cases hf : cells.find? fun p =>
      board p.1 p.2 == 0 && decide (countValid board p.1 p.2 ≤ 1) with
  | some q => rfl
  | none =>
    rw [mrvPick, mrvFirstMin]
    cases hm : minNat ((cells.filter fun p => board p.1 p.2 == 0).map fun p =>
        countValid board p.1 p.2) with
    | none =>
      rw [show emptyCells board = cells.filter fun p => board p.1 p.2 == 0 from rfl, hm]
    | some m =>
      rw [show emptyCells board = cells.filter fun p => board p.1 p.2 == 0 from rfl, hm]
      dsimp only
      have hmem := minNat_mem _ m hm
      obtain ⟨q, -, hq⟩ := List.mem_map.mp hmem
      rw [if_pos (show m < 10 from by have := countValid_le_nine board q.1 q.2; omega)]

/-- Builds a board from a 9×9 list-of-rows literal (0 = empty square). -/
def boardOfRows (rows : List (List Int)) : Board :=
  fun i j => ((rows.getD i.val []).getD j.val 0)

/-- Board refuting C6's "first cell attaining the minimum" reading: the first
scanned empty cell (0,0) has exactly one legal value (the 2), so the
short-circuit returns it, although the later empty cell (0,1) has zero legal
values and is therefore the one attaining the minimum count. -/
def mrvCexBoard : Board := boardOfRows
  [[0, 0, 3, 4, 5, 6, 7, 8, 9],
   [1, 4, 5, 9, 9, 9, 9, 9, 9],
   [6, 7, 8, 9, 9, 9, 9, 9, 9],
   [3, 2, 9, 9, 9, 9, 9, 9, 9],
   [4, 9, 9, 9, 9, 9, 9, 9, 9],
   [5, 9, 9, 9, 9, 9, 9, 9, 9],
   [7, 9, 9, 9, 9, 9, 9, 9, 9],
   [8, 9, 9, 9, 9, 9, 9, 9, 9],
   [9, 9, 9, 9, 9, 9, 9, 9, 9]]

/-- C6 counterexample: on `mrvCexBoard`, `findEmptyMRV` returns (0,0), whose
legal-value count is 1, while the first (indeed only) empty cell attaining
the minimum count is (0,1) with count 0 — so the returned cell is not the
first empty cell attaining the minimum count, refuting the claim's
characterisation of the returned cell. -/
theorem c6_counterexample :
    findEmptyMRV mrvCexBoard = some (0, 0) ∧
    mrvFirstMin mrvCexBoard = some (0, 1) ∧
    countValid mrvCexBoard 0 0 = 1 ∧ countValid mrvCexBoard 0 1 = 0 ∧
    findEmptyMRV mrvCexBoard ≠ mrvFirstMin mrvCexBoard := by
  refine ⟨by decide, by decide, by decide, by decide, by decide⟩

/-- The constraint-counting part of `findValidLCV` (sudokuSolver.cpp:157-185),
evaluated on the board `b1` that already holds the tentative value: for each
empty square of the row other than `(row,col)` and each empty square of the
column other than `(row,col)`, and for each empty square of the box other
than `(row,col)` itself, the number of still-legal values there.  A square
lying in the box and also in the row (or column) is counted by both loops. -/
def lcvCount (b1 : Board) (row col : Fin 9) : Nat :=
  ((List.finRange 9).map fun j =>
      (if b1 row j = 0 ∧ j ≠ col then countValid b1 row j else 0) +
      (if b1 j col = 0 ∧ j ≠ row then countValid b1 j col else 0)).sum +
  ((boxCells row col).map fun p =>
      if b1 p.1 p.2 = 0 ∧ p ≠ (row, col) then countValid b1 p.1 p.2 else 0).sum

/-- The constraint count of candidate `v` as computed from the board before
the tentative write. -/
def lcvConstraints (board : Board) (row col : Fin 9) (v : Int) : Nat :=
  lcvCount (writeCell board row col v) row col

/-- Insertion into the `valueConstraints` vector (sudokuSolver.cpp:187-191):
the insert position skips every entry whose count is `≤` the new one, so a
new value goes after all equal counts (stable). -/
def insertLCV : List (Int × Nat) → Int × Nat → List (Int × Nat)
  | [], x => [x]
  | y :: ys, x => if y.2 ≤ x.2 then y :: insertLCV ys x else x :: y :: ys

/-- The candidate loop of `findValidLCV` (sudokuSolver.cpp:150-192), threading
the board through each iteration's `board[row][col] = i; …; board[row][col] = 0`
mutation (note: the restore writes 0, not the entry value of the square). -/
def lcvLoop (row col : Fin 9) : List Int → Board → List (Int × Nat) →
    Board × List (Int × Nat)
  | [], b, acc => (b, acc)
  | v :: vs, b, acc =>
    if isValid b row col v then
      lcvLoop row col vs (writeCell (writeCell b row col v) row col 0)
        (insertLCV acc (v, lcvCount (writeCell b row col v) row col))
    else lcvLoop row col vs b acc

/-- `findValidLCV(board,row,col,validNums)` (sudokuSolver.cpp:148-197):
returns the final board (the C++ mutates its argument) and the output list. -/
def findValidLCVFull (board : Board) (row col : Fin 9) : Board × List Int :=
  ((lcvLoop row col vals board []).1, (lcvLoop row col vals board []).2.map Prod.fst)

/-- The claim's constraint count: every other empty cell sharing the row,
column or box counted ONCE.  Spec-side definition, for comparison with
`lcvConstraints`. -/
def lcvSpecConstraints (board : Board) (row col : Fin 9) (v : Int) : Nat :=
  ((getRelated row col).map fun p =>
      if (writeCell board row col v) p.1 p.2 = 0 then
        countValid (writeCell board row col v) p.1 p.2
      else 0).sum

/-- The claim's output: the valid values sorted ascending by the once-counted
constraint count, ties in ascending value order.  Spec-side definition. -/
def lcvSpecOrder (board : Board) (row col : Fin 9) : List Int :=
  ((findValid board row col).foldl
    (fun acc v => insertLCV acc (v, lcvSpecConstraints board row col v)) []).map Prod.fst

/-- Board refuting C5's "each such cell counted once" ordering: at (0,0) the
legal values are 1 and 2; the empty peer (0,1) lies in both the row and the
box of (0,0) and is counted twice by the implementation, which flips the
order of the two candidates relative to the once-counted ordering. -/
def lcvCexBoard : Board := boardOfRows
  [[0, 0, 3, 0, 4, 5, 6, 7, 8],
   [4, 5, 6, 7, 8, 9, 9, 9, 9],
   [7, 8, 9, 3, 5, 6, 9, 9, 9],
   [3, 1, 9, 2, 9, 9, 9, 9, 9],
   [5, 3, 9, 9, 9, 9, 9, 9, 9],
   [6, 4, 9, 9, 9, 9, 9, 9, 9],
   [8, 6, 9, 9, 9, 9, 9, 9, 9],
   [9, 7, 9, 9, 9, 9, 9, 9, 9],
   [9, 9, 9, 9, 9, 9, 9, 9, 9]]

/-- Board refuting C5's "the board is unchanged after the call" on a nonzero
cell: `findValidLCV` restores the cell to 0, not to its entry value 5. -/
def lcvCexBoard2 : Board := boardOfRows
  [[5, 9, 9, 9, 9, 9, 9, 9, 9],
   [9, 9, 9, 9, 9, 9, 9, 9, 9],
   [9, 9, 9, 9, 9, 9, 9, 9, 9],
   [9, 9, 9, 9, 9, 9, 9, 9, 9],
   [9, 9, 9, 9, 9, 9, 9, 9, 9],
   [9, 9, 9, 9, 9, 9, 9, 9, 9],
   [9, 9, 9, 9, 9, 9, 9, 9, 9],
   [9, 9, 9, 9, 9, 9, 9, 9, 9],
   [9, 9, 9, 9, 9, 9, 9, 9, 9]]

/-- C5 counterexample: on `lcvCexBoard`, `findValidLCV` outputs `[2, 1]`
while the once-counted ordering the claim describes is `[1, 2]`; and on
`lcvCexBoard2`, whose cell (0,0) holds 5, the call changes the board,
leaving 0 there. -/
theorem c5_counterexample :
    ((findValidLCVFull lcvCexBoard 0 0).2 = [2, 1] ∧
      lcvSpecOrder lcvCexBoard 0 0 = [1, 2] ∧
      (findValidLCVFull lcvCexBoard 0 0).2 ≠ lcvSpecOrder lcvCexBoard 0 0) ∧
    (lcvCexBoard2 0 0 = 5 ∧ (findValidLCVFull lcvCexBoard2 0 0).1 0 0 = 0 ∧
      (findValidLCVFull lcvCexBoard2 0 0).1 ≠ lcvCexBoard2) := by
  refine ⟨⟨by decide, by decide, by decide⟩, by decide, by decide, ?_⟩
  intro hcon
  have h00 := congrFun (congrFun hcon 0) 0
  rw [show (findValidLCVFull lcvCexBoard2 0 0).1 0 0 = 0 from by decide,
    show lcvCexBoard2 0 0 = 5 from by decide] at h00
  exact absurd h00 (by decide)

theorem writeCell_writeCell (b : Board) (row col : Fin 9) (v w : Int) :
    writeCell (writeCell b row col v) row col w = writeCell b row col w := by
  funext i j
  simp only [writeCell]
  split <;> rfl

theorem writeCell_zero (b : Board) (row col : Fin 9) (h : b row col = 0) :
    writeCell b row col 0 = b := by
  funext i j
  simp only [writeCell]
  split
  · rename_i hij
    obtain ⟨rfl, rfl⟩ := hij
    exact h.symm
  · rfl

/-- The strict lexicographic order (count, then value) that the output pairs
of the LCV insertion sort satisfy. -/
def pairLex (a b : Int × Nat) : Prop := a.2 < b.2 ∨ (a.2 = b.2 ∧ a.1 < b.1)

theorem mem_insertLCV (l : List (Int × Nat)) (x y : Int × Nat) :
    y ∈ insertLCV l x ↔ y ∈ l ∨ y = x := by
  induction l with
  | nil => simp [insertLCV]
  | cons z zs ih =>
    rw [insertLCV]
    split
    · simp only [List.mem_cons, ih]
      tauto
    · simp only [List.mem_cons]
      tauto

theorem insertLCV_pairwise (l : List (Int × Nat)) (x : Int × Nat)
    (hl : l.Pairwise pairLex) (hx : ∀ y ∈ l, y.1 < x.1) :
    (insertLCV l x).Pairwise pairLex := by
  induction l with
  | nil => simp [insertLCV]
  | cons z zs ih =>
    rw [List.pairwise_cons] at hl
    rw [insertLCV]
    split
    · rename_i hle
      rw [List.pairwise_cons]
      constructor
      · intro y hy
        rcases (mem_insertLCV zs x y).mp hy with hyz | hyx
        · exact hl.1 y hyz
        · subst hyx
          rcases Nat.lt_or_ge z.2 y.2 with h2 | h2
          · exact Or.inl h2
          · exact Or.inr ⟨by omega, hx z (List.mem_cons_self z zs)⟩
      · exact ih hl.2 fun y hy => hx y (List.mem_cons_of_mem z hy)
    · rename_i hgt
      rw [List.pairwise_cons]
      constructor
      · intro y hy
        rcases List.mem_cons.mp hy with rfl | hyz
        · exact Or.inl (by omega)
        · rcases hl.1 y hyz with h2 | h2
          · exact Or.inl (by omega)
          · exact Or.inl (by omega)
      · exact List.pairwise_cons.mpr hl

/-- The pure fold the LCV candidate loop computes once the board threading is
discharged: `pr` is the validity test and `k` the constraint count. -/
def lcvFold (pr : Int → Bool) (k : Int → Nat) (cands : List Int)
    (acc : List (Int × Nat)) : List (Int × Nat) :=
  cands.foldl (fun acc v => if pr v then insertLCV acc (v, k v) else acc) acc

theorem lcvLoop_eq (row col : Fin 9) (b : Board) (h : b row col = 0) :
    ∀ (cands : List Int) (acc : List (Int × Nat)),
      lcvLoop row col cands b acc =
        (b, lcvFold (fun v => isValid b row col v)
          (fun v => lcvConstraints b row col v) cands acc) := by
  intro cands
  induction cands with
  | nil => intro acc; rfl
  | cons v vs ih =>
    intro acc
    rw [lcvLoop, lcvFold, List.foldl_cons]
    by_cases hv : isValid b row col v = true
    · rw [if_pos hv, if_pos hv, writeCell_writeCell, writeCell_zero b row col h, ih]
      rfl
    · rw [if_neg hv, if_neg hv, ih]
      rfl

theorem mem_lcvFold (pr : Int → Bool) (k : Int → Nat) :
    ∀ (cands : List Int) (acc : List (Int × Nat)) (y : Int × Nat),
      y ∈ lcvFold pr k cands acc ↔
        y ∈ acc ∨ (y.1 ∈ cands ∧ pr y.1 = true ∧ y = (y.1, k y.1)) := by
  intro cands
  induction cands with
  | nil => intro acc y; simp [lcvFold]
  | cons v vs ih =>
    intro acc y
    rw [lcvFold, List.foldl_cons]
    by_cases hv : pr v = true
    · rw [if_pos hv, show List.foldl (fun acc v => if pr v then insertLCV acc (v, k v)
          else acc) (insertLCV acc (v, k v)) vs =
          lcvFold pr k vs (insertLCV acc (v, k v)) from rfl, ih, mem_insertLCV]
      constructor
      · rintro ((hy | rfl) | hy)
        · exact Or.inl hy
        · exact Or.inr ⟨List.mem_cons_self v vs, hv, rfl⟩
        · exact Or.inr ⟨List.mem_cons_of_mem v hy.1, hy.2.1, hy.2.2⟩
      · rintro (hy | ⟨hmem, hpy, hy2⟩)
        · exact Or.inl (Or.inl hy)
        · rcases List.mem_cons.mp hmem with he | hmemvs
          · left; right
            rw [hy2, he]
          · right
            exact ⟨hmemvs, hpy, hy2⟩
    · rw [if_neg hv, show List.foldl (fun acc v => if pr v then insertLCV acc (v, k v)
          else acc) acc vs = lcvFold pr k vs acc from rfl, ih]
      constructor
      · rintro (hy | hy)
        · exact Or.inl hy
        · exact Or.inr ⟨List.mem_cons_of_mem v hy.1, hy.2.1, hy.2.2⟩
      · rintro (hy | ⟨hmem, hpy, hy2⟩)
        · exact Or.inl hy
        · rcases List.mem_cons.mp hmem with he | hmemvs
          · exact absurd (he ▸ hpy) hv
          · right
            exact ⟨hmemvs, hpy, hy2⟩

theorem lcvFold_pairwise (pr : Int → Bool) (k : Int → Nat) :
    ∀ (cands : List Int) (acc : List (Int × Nat)),
      acc.Pairwise pairLex → (∀ y ∈ acc, ∀ v ∈ cands, y.1 < v) →
      cands.Pairwise (fun a b => a < b) →
      (lcvFold pr k cands acc).Pairwise pairLex := by
  intro cands
  induction cands with
  | nil => intro acc ha _ _; exact ha
  | cons v vs ih =>
    intro acc ha hlt hsorted
    rw [List.pairwise_cons] at hsorted
    rw [lcvFold, List.foldl_cons]
    by_cases hv : pr v = true
    · rw [if_pos hv]
      apply ih (insertLCV acc (v, k v))
      · exact insertLCV_pairwise acc (v, k v) ha
          fun y hy => hlt y hy v (List.mem_cons_self v vs)
      · intro y hy w hw
        rcases (mem_insertLCV acc (v, k v) y).mp hy with hya | rfl
        · exact hlt y hya w (List.mem_cons_of_mem v hw)
        · exact hsorted.1 w hw
      · exact hsorted.2
    · rw [if_neg hv]
      exact ih acc ha (fun y hy w hw => hlt y hy w (List.mem_cons_of_mem v hw)) hsorted.2

/-- C5 (amended): for every board and cell with `board[row][col] = 0` (every
cell the search ever orders values for), `findValidLCV` leaves the board
unchanged, outputs exactly the values 1..9 that `isValid` accepts at
`(row,col)`, and orders them ascending by the implementation's constraint
count `lcvConstraints` — which counts an empty box square that also shares
the row or the column twice, once per loop — with ties kept in ascending
value order (so the least `lcvConstraints` count comes first). -/
theorem c5_amended_findValidLCV (board : Board) (row col : Fin 9)
    (h : board row col = 0) :
    (findValidLCVFull board row col).1 = board ∧
    (∀ v : Int, v ∈ (findValidLCVFull board row col).2 ↔
      v ∈ vals ∧ isValid board row col v = true) ∧
    (findValidLCVFull board row col).2.Pairwise fun a b =>
      lcvConstraints board row col a < lcvConstraints board row col b ∨
      (lcvConstraints board row col a = lcvConstraints board row col b ∧ a < b) := by
  have hloop := lcvLoop_eq row col board h vals []
  refine ⟨?_, ?_, ?_⟩
  · rw [findValidLCVFull, hloop]
  · intro v
    rw [findValidLCVFull, hloop]
    dsimp only
    rw [List.mem_map]
    constructor
    · rintro ⟨y, hy, rfl⟩
      rcases (mem_lcvFold _ _ vals [] y).mp hy with hnil | ⟨hm, hp, -⟩
      · exact absurd hnil (List.not_mem_nil y)
      · exact ⟨hm, hp⟩
    · rintro ⟨hm, hp⟩
      refine ⟨(v, lcvConstraints board row col v), ?_, rfl⟩
      exact (mem_lcvFold _ _ vals [] _).mpr (Or.inr ⟨hm, hp, rfl⟩)
  · rw [findValidLCVFull, hloop]
    dsimp only
    rw [List.pairwise_map]
    have hpw : (lcvFold (fun v => isValid board row col v)
        (fun v => lcvConstraints board row col v) vals []).Pairwise pairLex :=
      lcvFold_pairwise _ _ vals [] (List.Pairwise.nil)
        (fun y hy => absurd hy (List.not_mem_nil y)) (by decide)
    apply List.Pairwise.imp_of_mem ?_ hpw
    intro a b hamem hbmem hab
    have ha2 : a.2 = lcvConstraints board row col a.1 := by
      rcases (mem_lcvFold _ _ vals [] a).mp hamem with hnil | ⟨-, -, ha⟩
      · exact absurd hnil (List.not_mem_nil a)
      · obtain ⟨a1, a2⟩ := a
        simpa using congrArg Prod.snd ha
    have hb2 : b.2 = lcvConstraints board row col b.1 := by
      rcases (mem_lcvFold _ _ vals [] b).mp hbmem with hnil | ⟨-, -, hb⟩
      · exact absurd hnil (List.not_mem_nil b)
      · obtain ⟨b1, b2⟩ := b
        simpa using congrArg Prod.snd hb
    rcases hab with h1 | h1
    · exact Or.inl (ha2 ▸ hb2 ▸ h1)
    · exact Or.inr ⟨ha2 ▸ hb2 ▸ h1.1, h1.2⟩

/-- Witness for `c5_amended_findValidLCV` at the concrete board `lcvCexBoard`,
whose cell (0,0) is empty. -/
theorem c5_amended_witness :
    lcvCexBoard 0 0 = 0 ∧
    ((findValidLCVFull lcvCexBoard 0 0).1 = lcvCexBoard ∧
     (∀ v : Int, v ∈ (findValidLCVFull lcvCexBoard 0 0).2 ↔
       v ∈ vals ∧ isValid lcvCexBoard 0 0 v = true) ∧
     (findValidLCVFull lcvCexBoard 0 0).2.Pairwise fun a b =>
       lcvConstraints lcvCexBoard 0 0 a < lcvConstraints lcvCexBoard 0 0 b ∨
       (lcvConstraints lcvCexBoard 0 0 a = lcvConstraints lcvCexBoard 0 0 b ∧ a < b)) :=
  ⟨by decide, c5_amended_findValidLCV lcvCexBoard 0 0 (by decide)⟩

/-- The board is fully filled. -/
def noZeros (board : Board) : Prop := ∀ i j : Fin 9, board i j ≠ 0

instance (board : Board) : Decidable (noZeros board) := by
  unfold noZeros; infer_instance

/-- `hasFuture(board)` (sudokuSolver.cpp:433-451): every empty square still
has at least one legal value. -/
def hasFuture (board : Board) : Bool :=
  cells.all fun p =>
    if board p.1 p.2 = 0 then vals.any fun v => isValid board p.1 p.2 v else true

/-- `findValidMAC` (sudokuSolver.cpp:136-138): the square's current domain. -/
def findValidMAC (domains : Domains) (row col : Fin 9) : List Int :=
  domains row col

/-- The output list of `findValidLCV` as a value-ordering policy.  Inside the
search it is only called on empty squares, where the C++'s transient board
mutation nets out to nothing (`c5_amended_findValidLCV`), so passing the
output component as a pure function is faithful to the search's view. -/
def findValidLCV (board : Board) (row col : Fin 9) : List Int :=
  (findValidLCVFull board row col).2

/-- The scan loop of `findEmptyMRVMAC` (sudokuSolver.cpp:408-427): like
`findEmptyMRV` but ranking empty squares by current domain size. -/
def mrvMACLoop (board : Board) (domains : Domains) :
    List Pos → Nat → Option Pos → Option Pos
  | [], _, best => best
  | p :: rest, smallest, best =>
    if board p.1 p.2 ≠ 0 then mrvMACLoop board domains rest smallest best
    else if (domains p.1 p.2).length < smallest then
      (if (domains p.1 p.2).length ≤ 1 then some p
       else mrvMACLoop board domains rest (domains p.1 p.2).length (some p))
    else mrvMACLoop board domains rest smallest best

/-- `findEmptyMRVMAC(board,domains)`. -/
def findEmptyMRVMAC (board : Board) (domains : Domains) : Option Pos :=
  mrvMACLoop board domains cells 10 none

/-- `findValidLCVMAC` (sudokuSolver.cpp:208-237): orders the square's own
domain by a domain-based penalty — for each peer with a nonempty domain, 100
when exactly one supporting value would remain, otherwise the number of
supporting values — using the same insertion sort. -/
def findValidLCVMAC (domains : Domains) (row col : Fin 9) : List Int :=
  ((domains row col).foldl (fun acc v =>
    insertLCV acc (v,
      ((getRelated row col).map fun q =>
        if domains q.1 q.2 = [] then 0
        else if ((domains q.1 q.2).filter fun w => decide (w ≠ v)).length = 1 then 100
        else ((domains q.1 q.2).filter fun w => decide (w ≠ v)).length).sum)) []).map
    Prod.fst

/-- The candidate loop of `pruning` (sudokuSolver.cpp:474-483): `step` is the
recursive call one fuel level down; each failed candidate is undone by
writing 0 back (`board[row][col] = 0`) and counted as a backtrack. -/
def pruningTry (step : Board → Nat → Nat → Bool × Board × Nat × Nat)
    (row col : Fin 9) : List Int → Board → Nat → Nat → Bool × Board × Nat × Nat
  | [], b, steps, backtracks => (false, b, steps, backtracks)
  | v :: vs, b, steps, backtracks =>
    match step (writeCell b row col v) steps backtracks with
    | (true, b2, st2, bt2) => (true, b2, st2, bt2)
    | (false, b2, st2, bt2) =>
      pruningTry step row col vs (writeCell b2 row col 0) st2 (bt2 + 1)

/-- `pruning(board,steps,backtracks,nextEmpty,validNumFinder)`
(sudokuSolver.cpp:462-485), with explicit fuel bounding the recursion depth
(81 suffices on any real call, since every recursion fills an empty square);
returns (solved, final board, steps, backtracks). -/
def pruning (nextEmpty : Board → Option Pos)
    (validNumFinder : Board → Fin 9 → Fin 9 → List Int) :
    Nat → Board → Nat → Nat → Bool × Board × Nat × Nat
  | 0, b, steps, backtracks => (false, b, steps, backtracks)
  | fuel + 1, b, steps, backtracks =>
    match nextEmpty b with
    | none => (true, b, steps, backtracks)
    | some (row, col) =>
      pruningTry (pruning nextEmpty validNumFinder fuel) row col
        (validNumFinder b row col) b (steps + 1) backtracks

/-- The candidate loop of `forwardChecking` (sudokuSolver.cpp:508-522): a
candidate that leaves some square with no legal value is undone at once
without recursing. -/
def forwardCheckingTry (step : Board → Nat → Nat → Bool × Board × Nat × Nat)
    (row col : Fin 9) : List Int → Board → Nat → Nat → Bool × Board × Nat × Nat
  | [], b, steps, backtracks => (false, b, steps, backtracks)
  | v :: vs, b, steps, backtracks =>
    if hasFuture (writeCell b row col v) = false then
      forwardCheckingTry step row col vs
        (writeCell (writeCell b row col v) row col 0) steps (backtracks + 1)
    else
      match step (writeCell b row col v) steps backtracks with
      | (true, b2, st2, bt2) => (true, b2, st2, bt2)
      | (false, b2, st2, bt2) =>
        forwardCheckingTry step row col vs (writeCell b2 row col 0) st2 (bt2 + 1)

/-- `forwardChecking(...)` (sudokuSolver.cpp:496-524). -/
def forwardChecking (nextEmpty : Board → Option Pos)
    (validNumFinder : Board → Fin 9 → Fin 9 → List Int) :
    Nat → Board → Nat → Nat → Bool × Board × Nat × Nat
  | 0, b, steps, backtracks => (false, b, steps, backtracks)
  | fuel + 1, b, steps, backtracks =>
    match nextEmpty b with
    | none => (true, b, steps, backtracks)
    | some (row, col) =>
      forwardCheckingTry (forwardChecking nextEmpty validNumFinder fuel) row col
        (validNumFinder b row col) b (steps + 1) backtracks

/-- The candidate loop of `pruningMAC` (sudokuSolver.cpp:549-569): each
candidate is tried against the clone `setDomain d (row,col) [v]` of the
parent's domains; the clone (as pruned by `ac3` and by the recursion) is
committed only when the recursion succeeds, otherwise the parent's `d` is
passed on untouched while the board write is undone. -/
def pruningMACTry
    (step : Board → Domains → Nat → Nat → Bool × Board × Domains × Nat × Nat)
    (row col : Fin 9) (d : Domains) :
    List Int → Board → Nat → Nat → Bool × Board × Domains × Nat × Nat
  | [], b, steps, backtracks => (false, b, d, steps, backtracks)
  | v :: vs, b, steps, backtracks =>
    match ac3 (setDomain d (row, col) [v]) with
    | (d2, true) =>
      (match step (writeCell b row col v) d2 steps backtracks with
       | (true, b2, d3, st2, bt2) => (true, b2, d3, st2, bt2)
       | (false, b2, _, st2, bt2) =>
         pruningMACTry step row col d vs (writeCell b2 row col 0) st2 (bt2 + 1))
    | (_, false) =>
      pruningMACTry step row col d vs (writeCell (writeCell b row col v) row col 0)
        steps (backtracks + 1)

/-- `pruningMAC(board,domains,steps,backtracks,nextEmpty,validNumFinder)`
(sudokuSolver.cpp:537-571); returns (solved, board, domains, steps,
backtracks). -/
def pruningMAC (nextEmpty : Board → Domains → Option Pos)
    (validNumFinder : Domains → Fin 9 → Fin 9 → List Int) :
    Nat → Board → Domains → Nat → Nat → Bool × Board × Domains × Nat × Nat
  | 0, b, d, steps, backtracks => (false, b, d, steps, backtracks)
  | fuel + 1, b, d, steps, backtracks =>
    match nextEmpty b d with
    | none => (true, b, d, steps, backtracks)
    | some (row, col) =>
      pruningMACTry (pruningMAC nextEmpty validNumFinder fuel) row col d
        (validNumFinder d row col) b (steps + 1) backtracks

theorem pruningTry_false (step : Board → Nat → Nat → Bool × Board × Nat × Nat)
    (row col : Fin 9)
    (hstep : ∀ b st bt, (step b st bt).1 = false → (step b st bt).2.1 = b) :
    ∀ (cands : List Int) (b : Board) (st bt : Nat), b row col = 0 →
      (pruningTry step row col cands b st bt).1 = false →
      (pruningTry step row col cands b st bt).2.1 = b := by
  intro cands
  induction cands with
  | nil => intro b st bt hb _; rfl
  | cons v vs ih =>
    intro b st bt hb hf
    rcases hr : step (writeCell b row col v) st bt with ⟨fb, b2, st2, bt2⟩
    rw [pruningTry, hr] at hf ⊢
    cases fb
    · dsimp only at hf ⊢
      have hb2 : b2 = writeCell b row col v := by
        have h2 := hstep (writeCell b row col v) st bt (by rw [hr])
        rw [hr] at h2
        exact h2
      rw [hb2, writeCell_writeCell, writeCell_zero b row col hb] at hf ⊢
      exact ih b st2 (bt2 + 1) hb hf
    · dsimp only at hf
      exact absurd hf (by simp)

theorem pruningTry_true (step : Board → Nat → Nat → Bool × Board × Nat × Nat)
    (row col : Fin 9)
    (hstep : ∀ b st bt, (step b st bt).1 = true → noZeros (step b st bt).2.1) :
    ∀ (cands : List Int) (b : Board) (st bt : Nat),
      (pruningTry step row col cands b st bt).1 = true →
      noZeros (pruningTry step row col cands b st bt).2.1 := by
  intro cands
  induction cands with
  | nil => intro b st bt h; exact absurd h (by simp [pruningTry])
  | cons v vs ih =>
    intro b st bt ht
    rcases hr : step (writeCell b row col v) st bt with ⟨fb, b2, st2, bt2⟩
    rw [pruningTry, hr] at ht ⊢
    cases fb
    · dsimp only at ht ⊢
      exact ih _ st2 (bt2 + 1) ht
    · dsimp only
      have h2 := hstep (writeCell b row col v) st bt (by rw [hr])
      rw [hr] at h2
      exact h2

theorem forwardCheckingTry_false (step : Board → Nat → Nat → Bool × Board × Nat × Nat)
    (row col : Fin 9)
    (hstep : ∀ b st bt, (step b st bt).1 = false → (step b st bt).2.1 = b) :
    ∀ (cands : List Int) (b : Board) (st bt : Nat), b row col = 0 →
      (forwardCheckingTry step row col cands b st bt).1 = false →
      (forwardCheckingTry step row col cands b st bt).2.1 = b := by
  intro cands
  induction cands with
  | nil => intro b st bt hb _; rfl
  | cons v vs ih =>
    intro b st bt hb hf
    rw [forwardCheckingTry] at hf ⊢
    by_cases hfut : hasFuture (writeCell b row col v) = false
    · rw [if_pos hfut] at hf ⊢
      rw [writeCell_writeCell, writeCell_zero b row col hb] at hf ⊢
      exact ih b st (bt + 1) hb hf
    · rw [if_neg hfut] at hf ⊢
      rcases hr : step (writeCell b row col v) st bt with ⟨fb, b2, st2, bt2⟩
      rw [hr] at hf
      cases fb
      · dsimp only at hf ⊢
        have hb2 : b2 = writeCell b row col v := by
          have h2 := hstep (writeCell b row col v) st bt (by rw [hr])
          rw [hr] at h2
          exact h2
        rw [hb2, writeCell_writeCell, writeCell_zero b row col hb] at hf ⊢
        exact ih b st2 (bt2 + 1) hb hf
      · dsimp only at hf
        exact absurd hf (by simp)

theorem forwardCheckingTry_true (step : Board → Nat → Nat → Bool × Board × Nat × Nat)
    (row col : Fin 9)
    (hstep : ∀ b st bt, (step b st bt).1 = true → noZeros (step b st bt).2.1) :
    ∀ (cands : List Int) (b : Board) (st bt : Nat),
      (forwardCheckingTry step row col cands b st bt).1 = true →
      noZeros (forwardCheckingTry step row col cands b st bt).2.1 := by
  intro cands
  induction cands with
  | nil => intro b st bt h; exact absurd h (by simp [forwardCheckingTry])
  | cons v vs ih =>
    intro b st bt ht
    rw [forwardCheckingTry] at ht ⊢
    by_cases hfut : hasFuture (writeCell b row col v) = false
    · rw [if_pos hfut] at ht ⊢
      exact ih _ st (bt + 1) ht
    · rw [if_neg hfut] at ht ⊢
      rcases hr : step (writeCell b row col v) st bt with ⟨fb, b2, st2, bt2⟩
      rw [hr] at ht
      cases fb
      · dsimp only at ht ⊢
        exact ih _ st2 (bt2 + 1) ht
      · dsimp only
        have h2 := hstep (writeCell b row col v) st bt (by rw [hr])
        rw [hr] at h2
        exact h2

theorem pruningMACTry_false
    (step : Board → Domains → Nat → Nat → Bool × Board × Domains × Nat × Nat)
    (row col : Fin 9) (d : Domains)
    (hstep : ∀ b d' st bt, (step b d' st bt).1 = false → (step b d' st bt).2.1 = b) :
    ∀ (cands : List Int) (b : Board) (st bt : Nat), b row col = 0 →
      (pruningMACTry step row col d cands b st bt).1 = false →
      (pruningMACTry step row col d cands b st bt).2.1 = b := by
  intro cands
  induction cands with
  | nil => intro b st bt hb _; rfl
  | cons v vs ih =>
    intro b st bt hb hf
    rcases hac : ac3 (setDomain d (row, col) [v]) with ⟨d2, fl⟩
    rw [pruningMACTry, hac] at hf ⊢
    cases fl
    · dsimp only at hf ⊢
      rw [writeCell_writeCell, writeCell_zero b row col hb] at hf ⊢
      exact ih b st (bt + 1) hb hf
    · dsimp only at hf ⊢
      rcases hr : step (writeCell b row col v) d2 st bt with ⟨fb, b2, d3, st2, bt2⟩
      rw [hr] at hf
      cases fb
      · dsimp only at hf ⊢
        have hb2 : b2 = writeCell b row col v := by
          have h2 := hstep (writeCell b row col v) d2 st bt (by rw [hr])
          rw [hr] at h2
          exact h2
        rw [hb2, writeCell_writeCell, writeCell_zero b row col hb] at hf ⊢
        exact ih b st2 (bt2 + 1) hb hf
      · dsimp only at hf
        exact absurd hf (by simp)

theorem pruningMACTry_true
    (step : Board → Domains → Nat → Nat → Bool × Board × Domains × Nat × Nat)
    (row col : Fin 9) (d : Domains)
    (hstep : ∀ b d' st bt, (step b d' st bt).1 = true → noZeros (step b d' st bt).2.1) :
    ∀ (cands : List Int) (b : Board) (st bt : Nat),
      (pruningMACTry step row col d cands b st bt).1 = true →
      noZeros (pruningMACTry step row col d cands b st bt).2.1 := by
  intro cands
  induction cands with
  | nil => intro b st bt h; exact absurd h (by simp [pruningMACTry])
  | cons v vs ih =>
    intro b st bt ht
    rcases hac : ac3 (setDomain d (row, col) [v]) with ⟨d2, fl⟩
    rw [pruningMACTry, hac] at ht ⊢
    cases fl
    · dsimp only at ht ⊢
      exact ih _ st (bt + 1) ht
    · dsimp only at ht ⊢
      rcases hr : step (writeCell b row col v) d2 st bt with ⟨fb, b2, d3, st2, bt2⟩
      rw [hr] at ht
      cases fb
      · dsimp only at ht ⊢
        exact ih _ st2 (bt2 + 1) ht
      · dsimp only
        have h2 := hstep (writeCell b row col v) d2 st bt (by rw [hr])
        rw [hr] at h2
        exact h2

/-- The parent's domains pass through the MAC candidate loop untouched on
every failing path, with no assumption on the recursive step. -/
theorem pruningMACTry_domains
    (step : Board → Domains → Nat → Nat → Bool × Board × Domains × Nat × Nat)
    (row col : Fin 9) (d : Domains) :
    ∀ (cands : List Int) (b : Board) (st bt : Nat),
      (pruningMACTry step row col d cands b st bt).1 = false →
      (pruningMACTry step row col d cands b st bt).2.2.1 = d := by
  intro cands
  induction cands with
  | nil => intro b st bt _; rfl
  | cons v vs ih =>
    intro b st bt hf
    rcases hac : ac3 (setDomain d (row, col) [v]) with ⟨d2, fl⟩
    rw [pruningMACTry, hac] at hf ⊢
    cases fl
    · dsimp only at hf ⊢
      exact ih _ st (bt + 1) hf
    · dsimp only at hf ⊢
      rcases hr : step (writeCell b row col v) d2 st bt with ⟨fb, b2, d3, st2, bt2⟩
      rw [hr] at hf
      cases fb
      · dsimp only at hf ⊢
        exact ih _ st2 (bt2 + 1) hf
      · dsimp only at hf
        exact absurd hf (by simp)

theorem pruning_frame (ne : Board → Option Pos)
    (vf : Board → Fin 9 → Fin 9 → List Int)
    (hne : ∀ b r c, ne b = some (r, c) → b r c = 0)
    (hne2 : ∀ b, ne b = none → noZeros b) :
    ∀ (fuel : Nat) (b : Board) (st bt : Nat),
      ((pruning ne vf fuel b st bt).1 = false → (pruning ne vf fuel b st bt).2.1 = b) ∧
      ((pruning ne vf fuel b st bt).1 = true →
        noZeros (pruning ne vf fuel b st bt).2.1) := by
  intro fuel
  induction fuel with
  | zero =>
    intro b st bt
    exact ⟨fun _ => rfl, fun h => absurd h (by simp [pruning])⟩
  | succ n ih =>
    intro b st bt
    rw [pruning]
    cases hne3 : ne b with
    | none =>
      exact ⟨fun h => absurd h (by simp), fun _ => hne2 b hne3⟩
    | some rc =>
      obtain ⟨r, c⟩ := rc
      dsimp only
      constructor
      · exact fun hf => pruningTry_false (pruning ne vf n) r c
          (fun b' st' bt' => (ih b' st' bt').1) (vf b r c) b (st + 1) bt
          (hne b r c hne3) hf
      · exact fun ht => pruningTry_true (pruning ne vf n) r c
          (fun b' st' bt' => (ih b' st' bt').2) (vf b r c) b (st + 1) bt ht

theorem forwardChecking_frame (ne : Board → Option Pos)
    (vf : Board → Fin 9 → Fin 9 → List Int)
    (hne : ∀ b r c, ne b = some (r, c) → b r c = 0)
    (hne2 : ∀ b, ne b = none → noZeros b) :
    ∀ (fuel : Nat) (b : Board) (st bt : Nat),
      ((forwardChecking ne vf fuel b st bt).1 = false →
        (forwardChecking ne vf fuel b st bt).2.1 = b) ∧
      ((forwardChecking ne vf fuel b st bt).1 = true →
        noZeros (forwardChecking ne vf fuel b st bt).2.1) := by
  intro fuel
  induction fuel with
  | zero =>
    intro b st bt
    exact ⟨fun _ => rfl, fun h => absurd h (by simp [forwardChecking])⟩
  | succ n ih =>
    intro b st bt
    rw [forwardChecking]
    cases hne3 : ne b with
    | none =>
      exact ⟨fun h => absurd h (by simp), fun _ => hne2 b hne3⟩
    | some rc =>
      obtain ⟨r, c⟩ := rc
      dsimp only
      constructor
      · exact fun hf => forwardCheckingTry_false (forwardChecking ne vf n) r c
          (fun b' st' bt' => (ih b' st' bt').1) (vf b r c) b (st + 1) bt
          (hne b r c hne3) hf
      · exact fun ht => forwardCheckingTry_true (forwardChecking ne vf n) r c
          (fun b' st' bt' => (ih b' st' bt').2) (vf b r c) b (st + 1) bt ht

theorem pruningMAC_frame (ne : Board → Domains → Option Pos)
    (vf : Domains → Fin 9 → Fin 9 → List Int)
    (hne : ∀ b d r c, ne b d = some (r, c) → b r c = 0)
    (hne2 : ∀ b d, ne b d = none → noZeros b) :
    ∀ (fuel : Nat) (b : Board) (d : Domains) (st bt : Nat),
      ((pruningMAC ne vf fuel b d st bt).1 = false →
        (pruningMAC ne vf fuel b d st bt).2.1 = b) ∧
      ((pruningMAC ne vf fuel b d st bt).1 = true →
        noZeros (pruningMAC ne vf fuel b d st bt).2.1) := by
  intro fuel
  induction fuel with
  | zero =>
    intro b d st bt
    exact ⟨fun _ => rfl, fun h => absurd h (by simp [pruningMAC])⟩
  | succ n ih =>
    intro b d st bt
    rw [pruningMAC]
    cases hne3 : ne b d with
    | none =>
      exact ⟨fun h => absurd h (by simp), fun _ => hne2 b d hne3⟩
    | some rc =>
      obtain ⟨r, c⟩ := rc
      dsimp only
      constructor
      · exact fun hf => pruningMACTry_false (pruningMAC ne vf n) r c d
          (fun b' d' st' bt' => (ih b' d' st' bt').1) (vf d r c) b (st + 1) bt
          (hne b d r c hne3) hf
      · exact fun ht => pruningMACTry_true (pruningMAC ne vf n) r c d
          (fun b' d' st' bt' => (ih b' d' st' bt').2) (vf d r c) b (st + 1) bt ht

/-- Whenever `pruningMAC` returns false, its domains argument comes back
unchanged — with no assumption on the policies. -/
theorem pruningMAC_domains_unchanged (ne : Board → Domains → Option Pos)
    (vf : Domains → Fin 9 → Fin 9 → List Int) :
    ∀ (fuel : Nat) (b : Board) (d : Domains) (st bt : Nat),
      (pruningMAC ne vf fuel b d st bt).1 = false →
      (pruningMAC ne vf fuel b d st bt).2.2.1 = d := by
  intro fuel b d st bt
  cases fuel with
  | zero => intro _; rfl
  | succ n =>
    intro hf
    rw [pruningMAC] at hf ⊢
    rcases hne3 : ne b d with - | ⟨r, c⟩
    · rw [hne3] at hf
    · rw [hne3] at hf
      exact pruningMACTry_domains (pruningMAC ne vf n) r c d (vf d r c) b (st + 1) bt hf

theorem findEmpty_some_empty : ∀ (b : Board) (r c : Fin 9),
    findEmpty b = some (r, c) → b r c = 0 := by
  intro b r c h
  have h2 := List.find?_some h
  simpa using h2

theorem findEmpty_none_noZeros : ∀ b : Board, findEmpty b = none → noZeros b := by
  intro b h i j hz
  have h2 := List.find?_eq_none.mp h (i, j) (mem_cells (i, j))
  simp only [beq_iff_eq] at h2
  exact h2 hz

theorem findEmptyMAC_some_empty : ∀ (b : Board) (d : Domains) (r c : Fin 9),
    findEmptyMAC b d = some (r, c) → b r c = 0 := by
  intro b d r c h
  have h2 := List.find?_some h
  simpa using h2

theorem findEmptyMAC_none_noZeros : ∀ (b : Board) (d : Domains),
    findEmptyMAC b d = none → noZeros b := by
  intro b d h i j hz
  have h2 := List.find?_eq_none.mp h (i, j) (mem_cells (i, j))
  simp only [beq_iff_eq] at h2
  exact h2 hz

/-- C2: for each of the three search routines, run with any cell-selection
policy that returns only empty squares and returns the `{-1,-1}` sentinel
(`none`) only on boards with no empty square — as `findEmpty`, `findEmptyMRV`
and `findEmptyMAC` do — and any value-ordering policy: when the routine
returns false the board is restored to exactly its state at entry (every
speculative assignment undone), and when it returns true the board is fully
solved (no zero squares remain). -/
theorem c2_search_frame (ne : Board → Option Pos)
    (vf : Board → Fin 9 → Fin 9 → List Int)
    (nem : Board → Domains → Option Pos)
    (vfm : Domains → Fin 9 → Fin 9 → List Int)
    (hne : ∀ b r c, ne b = some (r, c) → b r c = 0)
    (hne2 : ∀ b, ne b = none → noZeros b)
    (hnem : ∀ b d r c, nem b d = some (r, c) → b r c = 0)
    (hnem2 : ∀ b d, nem b d = none → noZeros b) :
    ∀ (fuel : Nat) (b : Board) (d : Domains) (st bt : Nat),
      ((pruning ne vf fuel b st bt).1 = false →
        (pruning ne vf fuel b st bt).2.1 = b) ∧
      ((pruning ne vf fuel b st bt).1 = true →
        noZeros (pruning ne vf fuel b st bt).2.1) ∧
      ((forwardChecking ne vf fuel b st bt).1 = false →
        (forwardChecking ne vf fuel b st bt).2.1 = b) ∧
      ((forwardChecking ne vf fuel b st bt).1 = true →
        noZeros (forwardChecking ne vf fuel b st bt).2.1) ∧
      ((pruningMAC nem vfm fuel b d st bt).1 = false →
        (pruningMAC nem vfm fuel b d st bt).2.1 = b) ∧
      ((pruningMAC nem vfm fuel b d st bt).1 = true →
        noZeros (pruningMAC nem vfm fuel b d st bt).2.1) := by
  intro fuel b d st bt
  exact ⟨(pruning_frame ne vf hne hne2 fuel b st bt).1,
    (pruning_frame ne vf hne hne2 fuel b st bt).2,
    (forwardChecking_frame ne vf hne hne2 fuel b st bt).1,
    (forwardChecking_frame ne vf hne hne2 fuel b st bt).2,
    (pruningMAC_frame nem vfm hnem hnem2 fuel b d st bt).1,
    (pruningMAC_frame nem vfm hnem hnem2 fuel b d st bt).2⟩

/-- C3: in `pruningMAC`, each candidate value is tried against the cloned
domain store `setDomain d (row,col) [v]`; when `ac3` on the clone reports an
inconsistency, or when the recursive call fails, the next candidate is tried
with the parent frame's domains `d` bit-for-bit unchanged — the clone (as
pruned by `ac3` and by the recursion) is committed only when the recursive
call succeeds; in particular, whenever `pruningMAC` returns false its
domains argument is returned unchanged. -/
theorem c3_pruningMAC_isolation (ne : Board → Domains → Option Pos)
    (vf : Domains → Fin 9 → Fin 9 → List Int) :
    (∀ (fuel : Nat) (b : Board) (d : Domains) (st bt : Nat),
      (pruningMAC ne vf fuel b d st bt).1 = false →
      (pruningMAC ne vf fuel b d st bt).2.2.1 = d) ∧
    (∀ (step : Board → Domains → Nat → Nat → Bool × Board × Domains × Nat × Nat)
      (row col : Fin 9) (d : Domains) (v : Int) (vs : List Int) (b : Board)
      (st bt : Nat) (d2 : Domains),
      ac3 (setDomain d (row, col) [v]) = (d2, false) →
      pruningMACTry step row col d (v :: vs) b st bt =
        pruningMACTry step row col d vs
          (writeCell (writeCell b row col v) row col 0) st (bt + 1)) ∧
    (∀ (step : Board → Domains → Nat → Nat → Bool × Board × Domains × Nat × Nat)
      (row col : Fin 9) (d : Domains) (v : Int) (vs : List Int) (b : Board)
      (st bt : Nat) (d2 : Domains) (b2 : Board) (d3 : Domains) (st2 bt2 : Nat),
      ac3 (setDomain d (row, col) [v]) = (d2, true) →
      step (writeCell b row col v) d2 st bt = (false, b2, d3, st2, bt2) →
      pruningMACTry step row col d (v :: vs) b st bt =
        pruningMACTry step row col d vs (writeCell b2 row col 0) st2 (bt2 + 1)) := by
  refine ⟨pruningMAC_domains_unchanged ne vf, ?_, ?_⟩
  · intro step row col d v vs b st bt d2 hac
    rw [pruningMACTry, hac]
  · intro step row col d v vs b st bt d2 b2 d3 st2 bt2 hac hstep
    rw [pruningMACTry, hac]
    dsimp only
    rw [hstep]

/-- A fully filled board (no zero squares). -/
def fullBoard : Board := fun _ _ => 9

/-- A board whose only empty square (0,0) admits no value: 1..8 occur in its
row and 9 in its column. -/
def stuckBoard : Board := boardOfRows
  [[0, 1, 2, 3, 4, 5, 6, 7, 8],
   [9, 9, 9, 9, 9, 9, 9, 9, 9],
   [9, 9, 9, 9, 9, 9, 9, 9, 9],
   [9, 9, 9, 9, 9, 9, 9, 9, 9],
   [9, 9, 9, 9, 9, 9, 9, 9, 9],
   [9, 9, 9, 9, 9, 9, 9, 9, 9],
   [9, 9, 9, 9, 9, 9, 9, 9, 9],
   [9, 9, 9, 9, 9, 9, 9, 9, 9],
   [9, 9, 9, 9, 9, 9, 9, 9, 9]]

/-- The all-empty domain store (a default-constructed `vector<int>[9][9]`). -/
def emptyDomains : Domains := fun _ _ => []

/-- Witness for `c2_search_frame` with the concrete policies `findEmpty`,
`findValid`, `findEmptyMAC`, `findValidMAC`: a full board is reported solved
with no zeros, and a stuck board is reported unsolvable with the board
returned exactly as passed. -/
theorem c2_search_frame_witness :
    ((pruning findEmpty findValid 1 fullBoard 0 0).1 = true ∧
      noZeros (pruning findEmpty findValid 1 fullBoard 0 0).2.1) ∧
    ((pruning findEmpty findValid 1 stuckBoard 0 0).1 = false ∧
      (pruning findEmpty findValid 1 stuckBoard 0 0).2.1 = stuckBoard) ∧
    ((forwardChecking findEmpty findValid 1 fullBoard 0 0).1 = true ∧
      noZeros (forwardChecking findEmpty findValid 1 fullBoard 0 0).2.1) ∧
    ((forwardChecking findEmpty findValid 1 stuckBoard 0 0).1 = false ∧
      (forwardChecking findEmpty findValid 1 stuckBoard 0 0).2.1 = stuckBoard) ∧
    ((pruningMAC findEmptyMAC findValidMAC 1 fullBoard emptyDomains 0 0).1 = true ∧
      noZeros (pruningMAC findEmptyMAC findValidMAC 1 fullBoard emptyDomains 0 0).2.1) ∧
    ((pruningMAC findEmptyMAC findValidMAC 1 stuckBoard emptyDomains 0 0).1 = false ∧
      (pruningMAC findEmptyMAC findValidMAC 1 stuckBoard emptyDomains 0 0).2.1 =
        stuckBoard) := by
  have h1 := c2_search_frame findEmpty findValid findEmptyMAC findValidMAC
    findEmpty_some_empty findEmpty_none_noZeros findEmptyMAC_some_empty
    findEmptyMAC_none_noZeros 1 fullBoard emptyDomains 0 0
  have h2 := c2_search_frame findEmpty findValid findEmptyMAC findValidMAC
    findEmpty_some_empty findEmpty_none_noZeros findEmptyMAC_some_empty
    findEmptyMAC_none_noZeros 1 stuckBoard emptyDomains 0 0
  exact ⟨⟨by decide, h1.2.1 (by decide)⟩, ⟨by decide, h2.1 (by decide)⟩,
    ⟨by decide, h1.2.2.2.1 (by decide)⟩, ⟨by decide, h2.2.2.1 (by decide)⟩,
    ⟨by decide, h1.2.2.2.2.2 (by decide)⟩, ⟨by decide, h2.2.2.2.2.1 (by decide)⟩⟩

/-- `initDomains(board,domains)` (sudokuSolver.cpp:244-259): a filled square's
domain is the singleton of its value; an empty square's domain holds every
value `isValid` accepts, in ascending order. -/
def initDomains (board : Board) : Domains :=
  fun i j =>
    if board i j ≠ 0 then [board i j]
    else vals.filter fun v => isValid board i j v

/-- `fillSingles(board,domains)` (sudokuSolver.cpp:335-343): writes the sole
member of every empty square's singleton domain into the board. -/
def fillSingles (board : Board) (domains : Domains) : Board :=
  fun i j =>
    if board i j = 0 ∧ (domains i j).length = 1 then (domains i j).headD 0
    else board i j

/-- `SolveResult` (sudokuSolver.cpp:602-608).  `runtime` is kept only because
the inconsistency path fixes its value; wall-clock timing itself is not
modelled and the normal path stores 0. -/
structure SolveResult where
  board : Board
  solved : Bool
  steps : Nat
  backtracks : Nat
  runtime : Int
deriving DecidableEq

/-- The `return {-1, -1, -1}` of the AC-3 inconsistency path
(sudokuSolver.cpp:638): aggregate initialization sends the three `-1`s into
`board[0][0..2]`, value-initializes the remaining board entries to 0, and
zero-initializes `solved`, `steps`, `backtracks` and `runtime`. -/
def inconsistencyResult : SolveResult where
  board := fun i j => if i = 0 ∧ j.val ≤ 2 then -1 else 0
  solved := false
  steps := 0
  backtracks := 0
  runtime := 0

/-- Packs a non-MAC search result (solved, board, steps, backtracks). -/
def mkResult (r : Bool × Board × Nat × Nat) : SolveResult where
  board := r.2.1
  solved := r.1
  steps := r.2.2.1
  backtracks := r.2.2.2
  runtime := 0

/-- Packs a MAC search result. -/
def mkResultMAC (r : Bool × Board × Domains × Nat × Nat) : SolveResult where
  board := r.2.1
  solved := r.1
  steps := r.2.2.2.1
  backtracks := r.2.2.2.2
  runtime := 0

/-- The 12-way dispatch of `solve` (sudokuSolver.cpp:643-678) on search
method × empty-square heuristic × value-ordering heuristic; an unmatched
selection leaves `solved = false` with the board as it stands, like the C++
whose `solved` stays false when no branch runs.  The fuel 82 exceeds the 81
possible assignments, so the searches never exhaust it on a real run. -/
def solveDispatch (board : Board) (domains : Domains)
    (method emptyFinder valueOrder : Int) : SolveResult :=
  if method = 1 ∧ emptyFinder = 1 ∧ valueOrder = 1 then
    mkResult (pruning findEmpty findValid 82 board 0 0)
  else if method = 1 ∧ emptyFinder = 1 ∧ valueOrder = 2 then
    mkResult (pruning findEmpty findValidLCV 82 board 0 0)
  else if method = 1 ∧ emptyFinder = 2 ∧ valueOrder = 1 then
    mkResult (pruning findEmptyMRV findValid 82 board 0 0)
  else if method = 1 ∧ emptyFinder = 2 ∧ valueOrder = 2 then
    mkResult (pruning findEmptyMRV findValidLCV 82 board 0 0)
  else if method = 2 ∧ emptyFinder = 1 ∧ valueOrder = 1 then
    mkResult (forwardChecking findEmpty findValid 82 board 0 0)
  else if method = 2 ∧ emptyFinder = 1 ∧ valueOrder = 2 then
    mkResult (forwardChecking findEmpty findValidLCV 82 board 0 0)
  else if method = 2 ∧ emptyFinder = 2 ∧ valueOrder = 1 then
    mkResult (forwardChecking findEmptyMRV findValid 82 board 0 0)
  else if method = 2 ∧ emptyFinder = 2 ∧ valueOrder = 2 then
    mkResult (forwardChecking findEmptyMRV findValidLCV 82 board 0 0)
  else if method = 3 ∧ emptyFinder = 1 ∧ valueOrder = 1 then
    mkResultMAC (pruningMAC findEmptyMAC findValidMAC 82 board domains 0 0)
  else if method = 3 ∧ emptyFinder = 1 ∧ valueOrder = 2 then
    mkResultMAC (pruningMAC findEmptyMAC findValidLCVMAC 82 board domains 0 0)
  else if method = 3 ∧ emptyFinder = 2 ∧ valueOrder = 1 then
    mkResultMAC (pruningMAC findEmptyMRVMAC findValidMAC 82 board domains 0 0)
  else if method = 3 ∧ emptyFinder = 2 ∧ valueOrder = 2 then
    mkResultMAC (pruningMAC findEmptyMRVMAC findValidLCVMAC 82 board domains 0 0)
  else
    ⟨board, false, 0, 0, 0⟩

/-- `solve(board)` (sudokuSolver.cpp:615-690), with the four menu answers as
parameters in place of `cin`.  Note `useAC3` is left unread by the C++ when
`method == 3`, but the `useAC3 == 1 || method == 3` test succeeds there
regardless of its value, which the model mirrors by quantifying over it.
When the preprocessing branch is skipped the domains stay default-empty. -/
def solve (board : Board) (method emptyFinder valueOrder useAC3 : Int) :
    SolveResult :=
  if useAC3 = 1 ∨ method = 3 then
    match ac3 (initDomains board) with
    | (_, false) => inconsistencyResult
    | (d1, true) =>
      solveDispatch (fillSingles board d1) d1 method emptyFinder valueOrder
  else solveDispatch board (fun _ _ => []) method emptyFinder valueOrder

/-- C9: whenever AC-3 preprocessing runs (the AC-3 flag was chosen or the MAC
method selected) and `ac3` on the initial domains reports an inconsistency,
`solve` returns the literal `{-1,-1,-1}` result — `solved = false`,
`steps = 0`, `backtracks = 0` — without invoking any search routine: the
result is a constant, independent of the board and of every heuristic
selection. -/
theorem c9_solve_inconsistent (board : Board)
    (method emptyFinder valueOrder useAC3 : Int)
    (hpre : useAC3 = 1 ∨ method = 3)
    (hac3 : (ac3 (initDomains board)).2 = false) :
    solve board method emptyFinder valueOrder useAC3 = inconsistencyResult ∧
    (solve board method emptyFinder valueOrder useAC3).solved = false ∧
    (solve board method emptyFinder valueOrder useAC3).steps = 0 ∧
    (solve board method emptyFinder valueOrder useAC3).backtracks = 0 := by
  have hs : solve board method emptyFinder valueOrder useAC3 =
      inconsistencyResult := by
    rw [solve, if_pos hpre]
    rcases hr : ac3 (initDomains board) with ⟨d1, fl⟩
    rw [hr] at hac3
    have hfl : fl = false := hac3
    subst hfl
    rfl
  exact ⟨hs, by rw [hs]; rfl, by rw [hs]; rfl, by rw [hs]; rfl⟩

/-- C10: on the AC-3 inconsistency path the returned `SolveResult` is built
from the literal initializer `{-1,-1,-1}`: its board holds -1 at (0,0),
(0,1) and (0,2) and 0 everywhere else, whatever the caller's grid held; it
is not a snapshot of the input board (whenever the input board differs from
that constant), and the -1 entries lie below the documented 0..9 grid
range (and 0 outside a solved board's 1..9 range). -/
theorem c10_solve_inconsistent_board (board : Board)
    (method emptyFinder valueOrder useAC3 : Int)
    (hpre : useAC3 = 1 ∨ method = 3)
    (hac3 : (ac3 (initDomains board)).2 = false) :
    (∀ i j : Fin 9, (solve board method emptyFinder valueOrder useAC3).board i j =
      if i = 0 ∧ j.val ≤ 2 then -1 else 0) ∧
    (solve board method emptyFinder valueOrder useAC3).board 0 0 = -1 ∧
    (solve board method emptyFinder valueOrder useAC3).board 0 1 = -1 ∧
    (solve board method emptyFinder valueOrder useAC3).board 0 2 = -1 ∧
    (solve board method emptyFinder valueOrder useAC3).board 0 0 < 0 ∧
    (board 0 0 ≠ -1 →
      (solve board method emptyFinder valueOrder useAC3).board ≠ board) := by
  have hs := (c9_solve_inconsistent board method emptyFinder valueOrder useAC3
    hpre hac3).1
  rw [hs]
  refine ⟨fun i j => rfl, rfl, rfl, rfl, by norm_num [inconsistencyResult], ?_⟩
  intro hb hcon
  exact hb ((congrFun (congrFun hcon 0) 0).symm.trans rfl)

/-- A board with two 1s in row 0: AC-3 preprocessing detects the
inconsistency at once. -/
def inconsistentBoard : Board := boardOfRows
  [[1, 1, 0, 0, 0, 0, 0, 0, 0],
   [0, 0, 0, 0, 0, 0, 0, 0, 0],
   [0, 0, 0, 0, 0, 0, 0, 0, 0],
   [0, 0, 0, 0, 0, 0, 0, 0, 0],
   [0, 0, 0, 0, 0, 0, 0, 0, 0],
   [0, 0, 0, 0, 0, 0, 0, 0, 0],
   [0, 0, 0, 0, 0, 0, 0, 0, 0],
   [0, 0, 0, 0, 0, 0, 0, 0, 0],
   [0, 0, 0, 0, 0, 0, 0, 0, 0]]

theorem inconsistentBoard_ac3 :
    (ac3 (initDomains inconsistentBoard)).2 = false := by
  have hupd1 : (update (initDomains inconsistentBoard) (0, 0) (0, 1)).2 = true := by decide
  have hupd2 : (update (initDomains inconsistentBoard) (0, 0) (0, 1)).1 0 0 = [] := by decide
  have hstop := ac3Aux_empty_stops
    (21 * totalSize (initDomains inconsistentBoard) + seedArcs.length)
    (initDomains inconsistentBoard) (0, 0) (0, 1) seedArcs.tail hupd1 hupd2
  have hseed : seedArcs =
      (((0 : Fin 9), (0 : Fin 9)), ((0 : Fin 9), (1 : Fin 9))) :: seedArcs.tail := by rfl
  have hrun := ac3_eq_aux (initDomains inconsistentBoard)
  nth_rewrite 2 [hseed] at hrun
  rw [hstop] at hrun
  exact (congrArg Prod.snd (Option.some.inj hrun)).symm

/-- Witness for `c9_solve_inconsistent` on `inconsistentBoard` with method 1
and the AC-3 flag set. -/
theorem c9_witness :
    (((1 : Int) = 1 ∨ (1 : Int) = 3) ∧
      (ac3 (initDomains inconsistentBoard)).2 = false) ∧
    (solve inconsistentBoard 1 1 1 1 = inconsistencyResult ∧
     (solve inconsistentBoard 1 1 1 1).solved = false ∧
     (solve inconsistentBoard 1 1 1 1).steps = 0 ∧
     (solve inconsistentBoard 1 1 1 1).backtracks = 0) :=
  ⟨⟨Or.inl rfl, inconsistentBoard_ac3⟩,
   c9_solve_inconsistent inconsistentBoard 1 1 1 1 (Or.inl rfl) inconsistentBoard_ac3⟩

/-- Witness for `c10_solve_inconsistent_board` on `inconsistentBoard`: its
cell (0,0) holds 1 ≠ -1, so the returned board differs from the input. -/
theorem c10_witness :
    (inconsistentBoard 0 0 = 1) ∧
    ((∀ i j : Fin 9, (solve inconsistentBoard 1 1 1 1).board i j =
        if i = 0 ∧ j.val ≤ 2 then -1 else 0) ∧
     (solve inconsistentBoard 1 1 1 1).board 0 0 = -1 ∧
     (solve inconsistentBoard 1 1 1 1).board 0 1 = -1 ∧
     (solve inconsistentBoard 1 1 1 1).board 0 2 = -1 ∧
     (solve inconsistentBoard 1 1 1 1).board 0 0 < 0 ∧
     (inconsistentBoard 0 0 ≠ -1 →
       (solve inconsistentBoard 1 1 1 1).board ≠ inconsistentBoard)) :=
  ⟨by decide,
   c10_solve_inconsistent_board inconsistentBoard 1 1 1 1 (Or.inl rfl)
     inconsistentBoard_ac3⟩

end SudokuSolver
